import Mathlib

set_option maxHeartbeats 1000000

/-!
Shallow embedding of `src/src/nfa.cpp` (tiny_regex): the Thompson-style NFA
fragment algebra, the epsilon-closure calculator and the subset constructor,
together with the DFA result structure consumed by an external matcher.

Conventions of the embedding:
* C++ `char` and `long` are both embedded as `Int`; the sentinels
  `RULE_UNDEFINED`, `RULE_EPSILON`, `REF_UNDEFINED` keep their numeric values.
* `std::vector` becomes `List`, `std::set<long>` becomes `Finset Nat`
  (all stored indices are nonnegative), `std::map` becomes a key-sorted
  association list.
* C++ member functions that mutate the `NFA` object are embedded in
  state-passing style: they take the receiver and return the result paired
  with the updated receiver.
* Out-of-range vector reads (undefined behaviour in C++) are resolved
  totally: a read of a missing state yields the default state, a read of a
  missing flag yields `true`, a read of a missing closure yields `∅`.
-/

namespace TinyRegex

/-- C++ constant `NFA::RULE_UNDEFINED` (a transition rule not yet assigned). -/
def RULE_UNDEFINED : Int := -1

/-- C++ constant `NFA::RULE_EPSILON` (an epsilon transition). -/
def RULE_EPSILON : Int := -2

/-- C++ constant `NFA::REF_UNDEFINED` (a target index not yet assigned). -/
def REF_UNDEFINED : Int := -1

/-- One NFA state, mirroring C++ `NFAState`: a transition `rule` (a character
code, `RULE_EPSILON`, or `RULE_UNDEFINED`) and the two outgoing target indices
`refs.first` / `refs.second`, each `REF_UNDEFINED` when absent.  The default
constructor leaves everything undefined. -/
structure NFAState where
  rule : Int := RULE_UNDEFINED
  ref1 : Int := REF_UNDEFINED
  ref2 : Int := REF_UNDEFINED
deriving DecidableEq, Repr

/-- A fragment reference, mirroring C++ `NFASubsetRef`: the (start, end) pair
of state indices of a sub-automaton.  The C++ field named `end` is called
`stop` here because `end` is a Lean keyword.  The default constructor produces
the sentinel empty fragment (both ends `REF_UNDEFINED`). -/
structure NFASubsetRef where
  start : Int := REF_UNDEFINED
  stop : Int := REF_UNDEFINED
deriving DecidableEq, Repr

/-- The NFA object, mirroring C++ `NFA`: the stored overall fragment reference
`nfa` and the growable state vector `vec`. -/
structure NFA where
  nfa : NFASubsetRef := {}
  vec : List NFAState := []
deriving DecidableEq, Repr

/-- The default-constructed `NFAState()` appended by the combinators. -/
def newState : NFAState := {}

/-- Read `vec[i]` at a C++ `long` index (total embedding of vector indexing;
only valid indices arise in well-formed use). -/
def vget (v : List NFAState) (i : Int) : NFAState := v.getD i.toNat {}

/-- Write `vec[i]` at a C++ `long` index. -/
def vset (v : List NFAState) (i : Int) (st : NFAState) : List NFAState :=
  v.set i.toNat st

/-- Read a state at a `Nat` index. -/
def stGet (nss : List NFAState) (i : Nat) : NFAState := nss.getD i {}

/-- C++ `NFA::ch`: append a (source, target) state pair, the source
transitioning on symbol `c` to the target; store and return the new fragment.
The two C++ assignments to `vec[nfa.start]` are merged into one record
update. -/
def NFA.ch (m : NFA) (c : Int) : NFASubsetRef × NFA :=
  let s : Int := m.vec.length
  let e : Int := s + 1
  let fr : NFASubsetRef := ⟨s, e⟩
  let v0 := m.vec ++ [newState, newState]
  let v1 := vset v0 s { vget v0 s with rule := c, ref1 := e }
  (fr, ⟨fr, v1⟩)

/-- C++ `NFA::link` (concatenation): rewrite the left fragment's exit state
into an epsilon transition to the right fragment's entry; store and return
`(lv.start, rv.end)`. -/
def NFA.link (m : NFA) (lv rv : NFASubsetRef) : NFASubsetRef × NFA :=
  let fr : NFASubsetRef := ⟨lv.start, rv.stop⟩
  let v1 := vset m.vec lv.stop
    { vget m.vec lv.stop with rule := RULE_EPSILON, ref1 := rv.start }
  (fr, ⟨fr, v1⟩)

/-- C++ `NFA::select` (alternation): append a new entry state with epsilon
branches to both operand entries and a new exit state; link both operand exits
to the new exit by epsilon; store and return the new fragment. -/
def NFA.select (m : NFA) (lv rv : NFASubsetRef) : NFASubsetRef × NFA :=
  let s : Int := m.vec.length
  let e : Int := s + 1
  let fr : NFASubsetRef := ⟨s, e⟩
  let v0 := m.vec ++ [newState, newState]
  let v1 := vset v0 s { vget v0 s with rule := RULE_EPSILON, ref1 := lv.start, ref2 := rv.start }
  let v2 := vset v1 lv.stop { vget v1 lv.stop with rule := RULE_EPSILON, ref1 := e }
  let v3 := vset v2 rv.stop { vget v2 rv.stop with rule := RULE_EPSILON, ref1 := e }
  (fr, ⟨fr, v3⟩)

/-- C++ `NFA::star`: append new entry/exit states; the entry epsilon-branches
to the operand entry and to the new exit; the operand exit epsilon-loops back
to the new entry; store and return the new fragment. -/
def NFA.star (m : NFA) (v : NFASubsetRef) : NFASubsetRef × NFA :=
  let s : Int := m.vec.length
  let e : Int := s + 1
  let fr : NFASubsetRef := ⟨s, e⟩
  let v0 := m.vec ++ [newState, newState]
  let v1 := vset v0 s { vget v0 s with rule := RULE_EPSILON, ref1 := v.start, ref2 := e }
  let v2 := vset v1 v.stop { vget v1 v.stop with rule := RULE_EPSILON, ref1 := s }
  (fr, ⟨fr, v2⟩)

/-- C++ `NFA::question` (optional): append one new entry state that
epsilon-branches to the operand entry and to the operand exit; the operand
exit is reused as the result's exit; store and return the new fragment. -/
def NFA.question (m : NFA) (v : NFASubsetRef) : NFASubsetRef × NFA :=
  let s : Int := m.vec.length
  let fr : NFASubsetRef := ⟨s, v.stop⟩
  let v0 := m.vec ++ [newState]
  let v1 := vset v0 s { vget v0 s with rule := RULE_EPSILON, ref1 := v.start, ref2 := v.stop }
  (fr, ⟨fr, v1⟩)

/-- The body of the `for` loop in C++ `NFA::range`: for each character `c`
from the loop counter up to `e`, chain `ns = select(ns, ch(c))`. -/
def NFA.rangeLoop (m : NFA) (ns : NFASubsetRef) (c e : Int) : NFASubsetRef × NFA :=
  if c ≤ e then
    let p := m.ch c
    let q := p.2.select ns p.1
    q.2.rangeLoop q.1 (c + 1) e
  else (ns, m)
termination_by (e + 1 - c).toNat
decreasing_by
  omega

/-- C++ `NFA::range`: if `s > e`, return the default-constructed sentinel
fragment (the receiver is untouched); if `s = e`, degenerate to `ch s`;
otherwise chain alternations of the literals in `[s, e]`. -/
def NFA.range (m : NFA) (s e : Int) : NFASubsetRef × NFA :=
  if s > e then ({}, m)
  else if s = e then m.ch s
  else
    let p := m.ch s
    p.2.rangeLoop p.1 (s + 1) e

/-- The body of the pointer loop in C++ `NFA::one_of`. -/
def NFA.oneOfLoop (m : NFA) (ns : NFASubsetRef) : List Int → NFASubsetRef × NFA
  | [] => (ns, m)
  | c :: rest =>
    let p := m.ch c
    let q := p.2.select ns p.1
    q.2.oneOfLoop q.1 rest

/-- C++ `NFA::one_of`: the NUL-terminated C string is embedded as the list of
its character codes; an empty list returns the default-constructed sentinel
fragment (the receiver is untouched). -/
def NFA.one_of (m : NFA) : List Int → NFASubsetRef × NFA
  | [] => ({}, m)
  | c :: rest =>
    let p := m.ch c
    p.2.oneOfLoop p.1 rest

/-- The message of the C++ `throw` in `calculate_epsilon_closures`. -/
def epsLoopMsg : String := "An epsilon infinite loop is detected."

/-- Read `flag[i]`; an out-of-range read (C++ UB) is resolved as `true`, so
that no out-of-range index is ever pushed. -/
def flagGet (flag : List Bool) (i : Nat) : Bool := flag.getD i true

/-- Read `ecs[i]`; an out-of-range read (C++ UB) is resolved as `∅`. -/
def ecsGet (ecs : List (Finset Nat)) (i : Nat) : Finset Nat := ecs.getD i ∅

/-- C++ `ecs[i].insert(s.begin(), s.end())`: union `s` into entry `i`. -/
def ecsUnion (ecs : List (Finset Nat)) (i : Nat) (s : Finset Nat) : List (Finset Nat) :=
  ecs.set i (ecsGet ecs i ∪ s)

/-- C++ `ecs[argi].insert(argi)`. -/
def ecsInsertSelf (ecs : List (Finset Nat)) (i : Nat) : List (Finset Nat) :=
  ecs.set i (insert i (ecsGet ecs i))

/-- The first-target union `ecs[argi] ∪= ecs[s1]`, performed exactly when `s1`
is defined (on every path that executes it, `flag[s1]` is necessarily set). -/
def ecsAfter1 (nss : List NFAState) (ecs : List (Finset Nat)) (argi : Nat) : List (Finset Nat) :=
  if (stGet nss argi).ref1 ≠ REF_UNDEFINED then
    ecsUnion ecs argi (ecsGet ecs (stGet nss argi).ref1.toNat)
  else ecs

/-- The second-target union `ecs[argi] ∪= ecs[s2]`. -/
def ecsAfter2 (nss : List NFAState) (ecs : List (Finset Nat)) (argi : Nat) : List (Finset Nat) :=
  if (stGet nss argi).ref2 ≠ REF_UNDEFINED then
    ecsUnion ecs argi (ecsGet ecs (stGet nss argi).ref2.toNat)
  else ecs

/-- Termination measure for the traversal loop of
`calculate_epsilon_closures`: lexicographically, the number of unset flags,
then the number of already-flagged entries on the stack, then the headroom
left before the stack-overflow guard trips.  Every loop iteration strictly
decreases it, which is exactly why the C++ loop terminates (either normally
or through the guard). -/
def ecMu (stack : List Nat) (flag : List Bool) (ecs : List (Finset Nat)) : Nat :=
  flag.count false * ((ecs.length + 3) * (ecs.length + 3))
    + (stack.countP fun e => flagGet flag e) * (ecs.length + 3)
    + (ecs.length + 2 - stack.length)

set_option linter.unusedVariables false in
/-- The `while(!stack.empty())` loop of C++ `calculate_epsilon_closures`,
one recursive call per iteration.  Pushing a not-yet-resolved target and
re-entering the loop models the C++ `continue`.  The named branch hypotheses
are consumed by the termination proof. -/
def ecLoop (nss : List NFAState) (stack : List Nat) (flag : List Bool)
    (ecs : List (Finset Nat)) : Except String (List Bool × List (Finset Nat)) :=
  match stack with
  | [] => Except.ok (flag, ecs)
  | argi :: rest =>
    if hg : ecs.length < (argi :: rest).length then Except.error epsLoopMsg
    else if hrule : (stGet nss argi).rule = RULE_EPSILON then
      if hp1 : (stGet nss argi).ref1 ≠ REF_UNDEFINED ∧
          flagGet flag (stGet nss argi).ref1.toNat = false then
        ecLoop nss ((stGet nss argi).ref1.toNat :: argi :: rest) flag ecs
      else if hp2 : (stGet nss argi).ref2 ≠ REF_UNDEFINED ∧
          flagGet flag (stGet nss argi).ref2.toNat = false then
        ecLoop nss ((stGet nss argi).ref2.toNat :: argi :: rest) flag
          (ecsAfter1 nss ecs argi)
      else
        ecLoop nss rest (flag.set argi true)
          (ecsInsertSelf (ecsAfter2 nss (ecsAfter1 nss ecs argi) argi) argi)
    else
      ecLoop nss rest (flag.set argi true) (ecsInsertSelf ecs argi)
termination_by ecMu stack flag ecs
decreasing_by
· -- push of the first target: the guard headroom shrinks, all else unchanged
  simp only [ecMu, List.countP_cons, List.length_cons, hp1.2, if_false, Bool.false_eq_true,
    Nat.add_zero]
  simp only [not_lt, List.length_cons] at hg
  omega
· -- push of the second target
  have hE1 : (ecsAfter1 nss ecs argi).length = ecs.length := by
    unfold ecsAfter1 ecsUnion
    split
    · simp
    · rfl
  simp only [ecMu, hE1, List.countP_cons, List.length_cons, hp2.2, if_false, Bool.false_eq_true,
    Nat.add_zero]
  simp only [not_lt, List.length_cons] at hg
  omega
· -- completion of an epsilon state: the state is flagged and popped
  have hE : (ecsInsertSelf (ecsAfter2 nss (ecsAfter1 nss ecs argi) argi) argi).length
      = ecs.length := by
    unfold ecsInsertSelf ecsAfter2 ecsAfter1 ecsUnion
    split <;> split <;> simp
  have hsetself : ∀ (l : List Bool) (i : Nat), flagGet l i = true → l.set i true = l := by
    intro l
    induction l with
    | nil => intro i _; rfl
    | cons b t ih =>
      intro i hb
      cases i with
      | zero =>
        have hb' : b = true := by simpa [flagGet] using hb
        simp [hb']
      | succ j =>
        have hb' : flagGet t j = true := by simpa [flagGet] using hb
        simp [ih j hb']
  have hcount : ∀ (l : List Bool) (i : Nat), flagGet l i = false →
      (l.set i true).count false + 1 = l.count false := by
    intro l
    induction l with
    | nil => intro i h; simp [flagGet] at h
    | cons b t ih =>
      intro i h
      cases i with
      | zero =>
        have hb : b = false := by simpa [flagGet] using h
        subst hb
        simp [List.count_cons]
      | succ j =>
        have h' : flagGet t j = false := by simpa [flagGet] using h
        have hih := ih j h'
        cases b <;> simp [List.count_cons] <;> omega
  simp only [not_lt, List.length_cons] at hg
  simp only [ecMu, hE, List.countP_cons, List.length_cons]
  cases hfa : flagGet flag argi with
  | true =>
    rw [hsetself flag argi hfa]
    simp only [hfa, if_true]
    have hmul : ((List.countP (fun e => flagGet flag e) rest) + 1) * (ecs.length + 3)
        = (List.countP (fun e => flagGet flag e) rest) * (ecs.length + 3) + (ecs.length + 3) := by
      ring
    omega
  | false =>
    have hUA : flag.count false * ((ecs.length + 3) * (ecs.length + 3))
        = (flag.set argi true).count false * ((ecs.length + 3) * (ecs.length + 3))
          + (ecs.length + 3) * (ecs.length + 3) := by
      rw [← hcount flag argi hfa]; ring
    have hF' : List.countP (fun e => flagGet (flag.set argi true) e) rest ≤ rest.length :=
      List.countP_le_length _
    have step1 : List.countP (fun e => flagGet (flag.set argi true) e) rest * (ecs.length + 3)
        ≤ rest.length * (ecs.length + 3) := Nat.mul_le_mul_right _ hF'
    have step2 : (rest.length + 1) * (ecs.length + 3)
        = rest.length * (ecs.length + 3) + (ecs.length + 3) := by ring
    have step3 : (rest.length + 1) * (ecs.length + 3) ≤ ecs.length * (ecs.length + 3) :=
      Nat.mul_le_mul_right _ (by omega)
    have step4 : (ecs.length + 3) * (ecs.length + 3)
        = ecs.length * (ecs.length + 3) + 3 * ecs.length + 9 := by ring
    omega
· -- completion of a non-epsilon state
  have hE : (ecsInsertSelf ecs argi).length = ecs.length := by
    unfold ecsInsertSelf
    simp
  have hsetself : ∀ (l : List Bool) (i : Nat), flagGet l i = true → l.set i true = l := by
    intro l
    induction l with
    | nil => intro i _; rfl
    | cons b t ih =>
      intro i hb
      cases i with
      | zero =>
        have hb' : b = true := by simpa [flagGet] using hb
        simp [hb']
      | succ j =>
        have hb' : flagGet t j = true := by simpa [flagGet] using hb
        simp [ih j hb']
  have hcount : ∀ (l : List Bool) (i : Nat), flagGet l i = false →
      (l.set i true).count false + 1 = l.count false := by
    intro l
    induction l with
    | nil => intro i h; simp [flagGet] at h
    | cons b t ih =>
      intro i h
      cases i with
      | zero =>
        have hb : b = false := by simpa [flagGet] using h
        subst hb
        simp [List.count_cons]
      | succ j =>
        have h' : flagGet t j = false := by simpa [flagGet] using h
        have hih := ih j h'
        cases b <;> simp [List.count_cons] <;> omega
  simp only [not_lt, List.length_cons] at hg
  simp only [ecMu, hE, List.countP_cons, List.length_cons]
  cases hfa : flagGet flag argi with
  | true =>
    rw [hsetself flag argi hfa]
    simp only [hfa, if_true]
    have hmul : ((List.countP (fun e => flagGet flag e) rest) + 1) * (ecs.length + 3)
        = (List.countP (fun e => flagGet flag e) rest) * (ecs.length + 3) + (ecs.length + 3) := by
      ring
    omega
  | false =>
    have hUA : flag.count false * ((ecs.length + 3) * (ecs.length + 3))
        = (flag.set argi true).count false * ((ecs.length + 3) * (ecs.length + 3))
          + (ecs.length + 3) * (ecs.length + 3) := by
      rw [← hcount flag argi hfa]; ring
    have hF' : List.countP (fun e => flagGet (flag.set argi true) e) rest ≤ rest.length :=
      List.countP_le_length _
    have step1 : List.countP (fun e => flagGet (flag.set argi true) e) rest * (ecs.length + 3)
        ≤ rest.length * (ecs.length + 3) := Nat.mul_le_mul_right _ hF'
    have step2 : (rest.length + 1) * (ecs.length + 3)
        = rest.length * (ecs.length + 3) + (ecs.length + 3) := by ring
    have step3 : (rest.length + 1) * (ecs.length + 3) ≤ ecs.length * (ecs.length + 3) :=
      Nat.mul_le_mul_right _ (by omega)
    have step4 : (ecs.length + 3) * (ecs.length + 3)
        = ecs.length * (ecs.length + 3) + 3 * ecs.length + 9 := by ring
    omega

/-- The `for(size_t i = 0; ...)` loop of C++ `calculate_epsilon_closures`:
push each seed index onto a fresh stack and run the traversal; a thrown
exception aborts everything. -/
def ecForLoop (nss : List NFAState) :
    List Nat → List Bool → List (Finset Nat) →
    Except String (List Bool × List (Finset Nat))
  | [], flag, ecs => Except.ok (flag, ecs)
  | i :: is, flag, ecs =>
    match ecLoop nss [i] flag ecs with
    | Except.error e => Except.error e
    | Except.ok (flag', ecs') => ecForLoop nss is flag' ecs'

/-- C++ `calculate_epsilon_closures`: the caller passes in the
closure table `ecs` (in `nfa2dfa`, one empty set per state); the flag vector
is freshly initialised to `false`.  Returns the completed table, or the
epsilon-cycle error with no partial result. -/
def calculate_epsilon_closures (nss : List NFAState) (ecs : List (Finset Nat)) :
    Except String (List (Finset Nat)) :=
  match ecForLoop nss (List.range nss.length) (List.replicate nss.length false) ecs with
  | Except.error e => Except.error e
  | Except.ok (_, ecs') => Except.ok ecs'

/-- Lookup in a key-sorted association list (the embedding of reading
`std::map<char, std::set<long>>`). -/
def mapLookupF (m : List (Int × Finset Nat)) (c : Int) : Option (Finset Nat) :=
  match m with
  | [] => none
  | (k, v) :: rest => if c = k then some v else mapLookupF rest c

/-- The effect of C++ `ch_closures[rule].insert(...)` on the embedded map:
create the entry if the key is new (keeping keys sorted), otherwise union
into the existing entry. -/
def mapInsertUnion (m : List (Int × Finset Nat)) (c : Int) (s : Finset Nat) :
    List (Int × Finset Nat) :=
  match m with
  | [] => [(c, s)]
  | (k, v) :: rest =>
    if c < k then (c, s) :: (k, v) :: rest
    else if c = k then (k, v ∪ s) :: rest
    else (k, v) :: mapInsertUnion rest c s

/-- One step of the first `std::for_each` in `NFA::nfa2dfa`: a member state
whose rule is epsilon or undefined contributes nothing; otherwise the epsilon
closure of its first target is unioned into the entry for its rule. -/
def ccStep (nss : List NFAState) (ecs : List (Finset Nat))
    (m : List (Int × Finset Nat)) (si : Nat) : List (Int × Finset Nat) :=
  if (stGet nss si).rule = RULE_EPSILON ∨ (stGet nss si).rule = RULE_UNDEFINED then m
  else mapInsertUnion m (stGet nss si).rule (ecsGet ecs (stGet nss si).ref1.toNat)

/-- The `ch_closures` map built for one DFA state: the first `std::for_each`
of `NFA::nfa2dfa`, iterating over the member set in increasing order (as
`std::set` iteration does). -/
def chClosures (nss : List NFAState) (ecs : List (Finset Nat)) (members : Finset Nat) :
    List (Int × Finset Nat) :=
  (members.sort (· ≤ ·)).foldl (ccStep nss ecs) []

/-- C++ `DFARefRecord`: one discovered DFA transition.  In C++ the fields are
`long`s defaulting to the sentinels, but every record is built fully
initialised with the nonnegative values embedded here (`from` and `to` are
Lean keywords, hence `frm` and `dst`). -/
structure DFARefRecord where
  frm : Nat
  rule : Int
  dst : Nat
deriving DecidableEq, Repr

/-- One step of the second `std::for_each` in `NFA::nfa2dfa`: look the
candidate subset up by structural equality (`std::find`, first match); if
found, the transition targets the existing index, otherwise the subset is
appended as a fresh DFA state at the old end of the list. -/
def findSetIdx (states : List (Finset Nat)) (S : Finset Nat) : Option Nat :=
  match states with
  | [] => none
  | T :: rest => if T = S then some 0 else (findSetIdx rest S).map (· + 1)

/-- See `findSetIdx`: C++ `std::find` over `dfa_states` followed by
`std::distance` — the index of the first structurally equal subset. -/
def subsetStepFold (dsi : Nat) (st : List (Finset Nat) × List DFARefRecord)
    (entry : Int × Finset Nat) : List (Finset Nat) × List DFARefRecord :=
  match findSetIdx st.1 entry.2 with
  | some idx => (st.1, st.2 ++ [⟨dsi, entry.1, idx⟩])
  | none => (st.1 ++ [entry.2], st.2 ++ [⟨dsi, entry.1, st.1.length⟩])

/-- The `for(size_t dsi = 0; dsi < dfa_states.size(); dsi++)` discovery loop
of `NFA::nfa2dfa`.  The C++ loop needs no fuel (the no-duplicates invariant
bounds `dfa_states` by the powerset of the closure universe); the embedding
takes explicit fuel, and `nfa2dfa` passes enough for the bound. -/
def subsetLoop (nss : List NFAState) (ecs : List (Finset Nat)) :
    Nat → Nat → List (Finset Nat) → List DFARefRecord →
    Option (List (Finset Nat) × List DFARefRecord)
  | 0, _, _, _ => none
  | fuel + 1, dsi, states, recs =>
    if h : dsi < states.length then
      let next := (chClosures nss ecs (states.get ⟨dsi, h⟩)).foldl
        (subsetStepFold dsi) (states, recs)
      subsetLoop nss ecs fuel (dsi + 1) next.1 next.2
    else some (states, recs)

/-- The union of all computed closures: every subset that subset construction
can ever form is contained in it. -/
def ecUniverse (ecs : List (Finset Nat)) : Finset Nat := ecs.foldr (· ∪ ·) ∅

/-- Fuel sufficient for `subsetLoop`: the no-duplicate subsets invariant
bounds the number of DFA states by `2 ^ card (ecUniverse ecs)`. -/
def subsetFuel (ecs : List (Finset Nat)) : Nat := 2 ^ (ecUniverse ecs).card + 1

/-- Modelled from the spec: `dfa.h` is not under `src/`, only its use in
`nfa.cpp` is.  A DFA state carries an accepting flag `is_end` and a map from
symbol to the unique successor index (`refs`), embedded as a key-sorted
association list. -/
structure DFAState where
  is_end : Bool := false
  refs : List (Int × Nat) := []
deriving DecidableEq, Repr

/-- Modelled from the spec: the DFA is an owned fixed-size sequence of DFA
states; `DFA dfa(n)` builds `n` default states. -/
structure DFA where
  states : List DFAState
deriving DecidableEq, Repr

/-- Modelled from the spec: `std::map::emplace` inserts a key-value pair only
if the key is not yet present (no overwrite), keeping keys sorted. -/
def mapEmplace (m : List (Int × Nat)) (c : Int) (t : Nat) : List (Int × Nat) :=
  match m with
  | [] => [(c, t)]
  | (k, v) :: rest =>
    if c < k then (c, t) :: (k, v) :: rest
    else if c = k then (k, v) :: rest
    else (k, v) :: mapEmplace rest c t

/-- Lookup in a DFA state's transition map. -/
def mapLookupN (m : List (Int × Nat)) (c : Int) : Option Nat :=
  match m with
  | [] => none
  | (k, v) :: rest => if c = k then some v else mapLookupN rest c

/-- One step of the third `std::for_each` of `NFA::nfa2dfa`:
`dfa[rec.from].refs.emplace(rec.rule, rec.to)`. -/
def applyRec (d : List DFAState) (r : DFARefRecord) : List DFAState :=
  d.set r.frm
    (let st := d.getD r.frm {}
     { st with refs := mapEmplace st.refs r.rule r.dst })

/-- The DFA-assembly epilogue of `NFA::nfa2dfa`: build `dfa_states.size()`
DFA states, mark a state accepting exactly when its member set contains
`nfa.end` (this runs after discovery is complete), then record every
discovered transition. -/
def assembleDFA (states : List (Finset Nat)) (recs : List DFARefRecord)
    (endRef : Int) : DFA :=
  let base := states.map fun S =>
    DFAState.mk (decide (0 ≤ endRef) && decide (endRef.toNat ∈ S)) []
  ⟨recs.foldl applyRec base⟩

/-- C++ `NFA::nfa2dfa`, as a function of the data it reads: the stored
overall fragment reference and the state vector.  `none` is the
fuel-exhaustion case of the embedding, which sufficient fuel makes
unreachable; `Except.error` is the propagated epsilon-cycle exception. -/
def nfa2dfaOf (fr : NFASubsetRef) (nss : List NFAState) : Option (Except String DFA) :=
  match calculate_epsilon_closures nss (List.replicate nss.length ∅) with
  | Except.error e => some (Except.error e)
  | Except.ok ecs =>
    match subsetLoop nss ecs (subsetFuel ecs) 0 [ecsGet ecs fr.start.toNat] [] with
    | none => none
    | some (states, recs) => some (Except.ok (assembleDFA states recs fr.stop))

/-- C++ `NFA::nfa2dfa` as invoked on the object: it reads only the stored
fragment reference and the state vector. -/
def NFA.nfa2dfa (m : NFA) : Option (Except String DFA) := nfa2dfaOf m.nfa m.vec

/-- The method-call view of `nfa2dfa`: result paired with the receiver after
the call.  The body of the C++ method performs no assignment to `nfa` or
`vec`, so the translated post-state is the unchanged receiver. -/
def NFA.nfa2dfaCall (m : NFA) : Option (Except String DFA) × NFA :=
  (nfa2dfaOf m.nfa m.vec, m)

/-- Modelled from the spec: a DFA state read off the result structure. -/
def DFA.stateAt (d : DFA) (i : Nat) : DFAState := d.states.getD i {}

/-- Modelled from the spec: the external matching engine drives the DFA one
input symbol at a time; an unlisted symbol means no transition. -/
def DFA.runFrom (d : DFA) (i : Nat) : List Int → Option Nat
  | [] => some i
  | c :: w =>
    match mapLookupN (d.stateAt i).refs c with
    | none => none
    | some j => d.runFrom j w

/-- Modelled from the spec: the DFA accepts a word when the run from state 0
survives and ends in an accepting state; a missing transition is an implicit
reject. -/
def DFA.acceptsB (d : DFA) (w : List Int) : Bool :=
  match d.runFrom 0 w with
  | none => false
  | some j => (d.stateAt j).is_end

/-- Acceptance through the whole pipeline: convert the automaton and run the
resulting DFA; a conversion error (or fuel exhaustion) accepts nothing. -/
def nfaAcceptsVia (m : NFA) (w : List Int) : Bool :=
  match m.nfa2dfa with
  | some (Except.ok d) => d.acceptsB w
  | _ => false

/-- One epsilon edge of the NFA state graph: state `i` is an epsilon state
and one of its two targets is `j` (a `Nat` target equals an `Int` reference
only when the reference is nonnegative, so `REF_UNDEFINED` never matches). -/
def epsStep (nss : List NFAState) (i j : Nat) : Prop :=
  (stGet nss i).rule = RULE_EPSILON ∧
    ((stGet nss i).ref1 = (j : Int) ∨ (stGet nss i).ref2 = (j : Int))

/-- Reachability through zero or more epsilon edges. -/
def EpsReach (nss : List NFAState) : Nat → Nat → Prop :=
  Relation.ReflTransGen (epsStep nss)

/-- One consuming edge: state `i` carries the (proper) symbol `c` and moves
to its first target `j`. -/
def chStep (nss : List NFAState) (c : Int) (i j : Nat) : Prop :=
  (stGet nss i).rule = c ∧ c ≠ RULE_EPSILON ∧ c ≠ RULE_UNDEFINED ∧
    (stGet nss i).ref1 = (j : Int)

/-- The standard acceptance relation of the embedded NFA: a path from `i` to
`k` consuming the word, with free epsilon moves. -/
inductive NfaAccepts (nss : List NFAState) : Nat → List Int → Nat → Prop where
  | nil (i : Nat) : NfaAccepts nss i [] i
  | eps {i j k : Nat} {w : List Int} :
      epsStep nss i j → NfaAccepts nss j w k → NfaAccepts nss i w k
  | chr {i j k : Nat} {c : Int} {w : List Int} :
      chStep nss c i j → NfaAccepts nss j w k → NfaAccepts nss i (c :: w) k

/-- Well-formedness of one state within a vector of `n` states: defined
references point into the vector, and a state carrying a proper symbol has a
defined first target.  Every NFA built by the fragment algebra satisfies
this. -/
def WFState (n : Nat) (st : NFAState) : Prop :=
  (st.ref1 ≠ REF_UNDEFINED → 0 ≤ st.ref1 ∧ st.ref1 < (n : Int)) ∧
  (st.ref2 ≠ REF_UNDEFINED → 0 ≤ st.ref2 ∧ st.ref2 < (n : Int)) ∧
  (st.rule ≠ RULE_EPSILON → st.rule ≠ RULE_UNDEFINED → st.ref1 ≠ REF_UNDEFINED)

/-- Well-formedness of a state vector. -/
def WFNfa (nss : List NFAState) : Prop := ∀ st ∈ nss, WFState nss.length st

/-- A fragment reference whose two endpoints are real states of the vector. -/
def ValidFrag (len : Nat) (f : NFASubsetRef) : Prop :=
  0 ≤ f.start ∧ f.start < (len : Int) ∧ 0 ≤ f.stop ∧ f.stop < (len : Int)

/-- The NFAs reachable from `NFA()` by the fragment algebra, each structural
operation applied to fragments whose endpoints are real states (as every
fragment previously returned by the algebra is).  `range` and `one_of` are
compositions of `ch` and `select`, so automata built with them are also of
this shape (see the closure lemmas). -/
inductive Built : NFA → Prop where
  | init : Built {}
  | ch {m : NFA} (c : Int) : Built m → Built (m.ch c).2
  | link {m : NFA} {lv rv : NFASubsetRef} : Built m →
      ValidFrag m.vec.length lv → ValidFrag m.vec.length rv → Built (m.link lv rv).2
  | select {m : NFA} {lv rv : NFASubsetRef} : Built m →
      ValidFrag m.vec.length lv → ValidFrag m.vec.length rv → Built (m.select lv rv).2
  | star {m : NFA} {v : NFASubsetRef} : Built m →
      ValidFrag m.vec.length v → Built (m.star v).2
  | question {m : NFA} {v : NFASubsetRef} : Built m →
      ValidFrag m.vec.length v → Built (m.question v).2

/-- The symbol-indexed move of subset construction, as a set: the union of
the closures of the first targets of the member states carrying symbol `c`
(epsilon and undefined members are skipped). -/
def codeMove (nss : List NFAState) (ecs : List (Finset Nat))
    (S : Finset Nat) (c : Int) : Finset Nat :=
  (S.filter fun si => (stGet nss si).rule = c ∧
      ¬((stGet nss si).rule = RULE_EPSILON ∨ (stGet nss si).rule = RULE_UNDEFINED)).biUnion
    fun si => ecsGet ecs (stGet nss si).ref1.toNat

/-- Iterated `codeMove` along a word. -/
def movesFold (nss : List NFAState) (ecs : List (Finset Nat))
    (S : Finset Nat) (w : List Int) : Finset Nat :=
  w.foldl (codeMove nss ecs) S

/-- A set of states closed under epsilon reachability. -/
def ClosedSet (nss : List NFAState) (S : Finset Nat) : Prop :=
  ∀ x ∈ S, ∀ y, EpsReach nss x y → y ∈ S

/-- The member states that the symbol-partitioning loop of `nfa2dfa` does
not skip: rule neither epsilon nor undefined. -/
def keepSym (nss : List NFAState) (si : Nat) : Prop :=
  ¬((stGet nss si).rule = RULE_EPSILON ∨ (stGet nss si).rule = RULE_UNDEFINED)

instance instDecKeepSym (nss : List NFAState) : DecidablePred (keepSym nss) := fun si => by
  unfold keepSym
  infer_instance

/-- Invariant of the closure traversal: every flagged in-range state's
closure entry is exactly its epsilon reachability set. -/
def InvFlagged (nss : List NFAState) (flag : List Bool) (ecs : List (Finset Nat)) : Prop :=
  ∀ s, s < nss.length → flagGet flag s = true →
    (↑(ecsGet ecs s) : Set Nat) = {j | EpsReach nss s j}

/-- Soundness invariant of the closure traversal: every closure entry is a
subset of the epsilon reachability set of its state. -/
def InvSound (nss : List NFAState) (ecs : List (Finset Nat)) : Prop :=
  ∀ s j, j ∈ ecsGet ecs s → EpsReach nss s j

/-! Generic list access lemmas used throughout the development. -/

theorem getD_eq_of_ge {α : Type _} (l : List α) (i : Nat) (d : α) (h : l.length ≤ i) :
    l.getD i d = d := by
  induction l generalizing i with
  | nil => rfl
  | cons a t ih =>
    cases i with
    | zero => simp at h
    | succ j => simpa using ih j (by simpa using h)

theorem getD_set_self {α : Type _} (l : List α) (i : Nat) (a d : α) (h : i < l.length) :
    (l.set i a).getD i d = a := by
  induction l generalizing i with
  | nil => simp at h
  | cons b t ih =>
    cases i with
    | zero => rfl
    | succ j => simpa using ih j (by simpa using h)

theorem getD_set_other {α : Type _} (l : List α) (i j : Nat) (a d : α) (h : i ≠ j) :
    (l.set i a).getD j d = l.getD j d := by
  induction l generalizing i j with
  | nil => rfl
  | cons b t ih =>
    cases i with
    | zero =>
      cases j with
      | zero => exact absurd rfl h
      | succ j' => rfl
    | succ i' =>
      cases j with
      | zero => rfl
      | succ j' => simpa using ih i' j' (by omega)

theorem set_of_ge {α : Type _} (l : List α) (i : Nat) (a : α) (h : l.length ≤ i) :
    l.set i a = l := by
  induction l generalizing i with
  | nil => rfl
  | cons b t ih =>
    cases i with
    | zero => simp at h
    | succ j => simpa using ih j (by simpa using h)

theorem getD_append_left {α : Type _} (l t : List α) (i : Nat) (d : α) (h : i < l.length) :
    (l ++ t).getD i d = l.getD i d := by
  induction l generalizing i with
  | nil => simp at h
  | cons b r ih =>
    cases i with
    | zero => rfl
    | succ j => simpa using ih j (by simpa using h)

theorem getD_append_right {α : Type _} (l t : List α) (i : Nat) (d : α) (h : l.length ≤ i) :
    (l ++ t).getD i d = t.getD (i - l.length) d := by
  induction l generalizing i with
  | nil => simp
  | cons b r ih =>
    cases i with
    | zero => simp at h
    | succ j =>
      have := ih j (by simpa using h)
      simpa [Nat.succ_sub_succ] using this

theorem getD_replicate_lt {α : Type _} (n i : Nat) (a d : α) (h : i < n) :
    (List.replicate n a).getD i d = a := by
  induction n generalizing i with
  | zero => simp at h
  | succ k ih =>
    cases i with
    | zero => rfl
    | succ j => simpa [List.replicate] using ih j (by omega)

theorem getD_map_lt {α β : Type _} (f : α → β) (l : List α) (i : Nat) (d : α) (d' : β)
    (h : i < l.length) : (l.map f).getD i d' = f (l.getD i d) := by
  induction l generalizing i with
  | nil => simp at h
  | cons b t ih =>
    cases i with
    | zero => rfl
    | succ j => simpa using ih j (by simpa using h)

/-! Claim C7: degenerate `range` and `one_of`. -/

/-- C7: `range` called with `lo > hi` and `one_of` called with the empty
character list both return the sentinel empty fragment (the
default-constructed reference, both endpoints `REF_UNDEFINED`) without
failing and without appending any state — the receiver is returned
unchanged; and `range` with `lo = hi` returns exactly the result of the
literal constructor `ch lo`, fragment and state effect alike. -/
theorem claim_C7_degenerate_range_one_of (m : NFA) :
    (∀ s e : Int, s > e → m.range s e = ({}, m)) ∧
    m.one_of [] = ({}, m) ∧
    (∀ s : Int, m.range s s = m.ch s) := by
  refine ⟨fun s e h => ?_, rfl, fun s => ?_⟩
  · simp [NFA.range, h]
  · simp [NFA.range]

/-- Witness for C7 at concrete inputs. -/
theorem claim_C7_degenerate_range_one_of_witness :
    ({} : NFA).range 99 97 = ({}, ({} : NFA)) ∧
    ({} : NFA).one_of [] = ({}, ({} : NFA)) ∧
    ({} : NFA).range 97 97 = ({} : NFA).ch 97 :=
  ⟨(claim_C7_degenerate_range_one_of {}).1 99 97 (by decide),
   (claim_C7_degenerate_range_one_of {}).2.1,
   (claim_C7_degenerate_range_one_of {}).2.2 97⟩

/-! Claim C8: conversion does not touch the source NFA. -/

/-- C8: converting an NFA to a DFA leaves the source NFA unchanged — the
method-call view returns the receiver with the same state sequence and the
same stored fragment reference — and the conversion result is a pure
function of exactly the data it reads (the stored reference and the state
vector), so closure computation and subset construction only read them. -/
theorem claim_C8_conversion_leaves_nfa_unchanged (m : NFA) :
    (m.nfa2dfaCall).2.vec = m.vec ∧ (m.nfa2dfaCall).2.nfa = m.nfa ∧
    (m.nfa2dfaCall).1 = m.nfa2dfa ∧
    (∀ m' : NFA, m'.vec = m.vec → m'.nfa = m.nfa → m'.nfa2dfa = m.nfa2dfa) := by
  refine ⟨rfl, rfl, rfl, fun m' hv hn => ?_⟩
  simp [NFA.nfa2dfa, hv, hn]

/-- Witness for C8 at a concrete input. -/
theorem claim_C8_conversion_leaves_nfa_unchanged_witness :
    (({} : NFA).nfa2dfaCall).2.vec = ({} : NFA).vec ∧
    (({} : NFA).nfa2dfaCall).2.nfa = ({} : NFA).nfa ∧
    (({} : NFA).nfa2dfaCall).1 = ({} : NFA).nfa2dfa ∧
    ({} : NFA).nfa2dfa = ({} : NFA).nfa2dfa :=
  ⟨(claim_C8_conversion_leaves_nfa_unchanged {}).1,
   (claim_C8_conversion_leaves_nfa_unchanged {}).2.1,
   (claim_C8_conversion_leaves_nfa_unchanged {}).2.2.1,
   (claim_C8_conversion_leaves_nfa_unchanged {}).2.2.2 {} rfl rfl⟩

/-! Claim C9: the stored overall fragment reference. -/

/-- C9: after each of `ch`, `link`, `select`, `star`, `question` the stored
overall fragment equals the returned fragment; `nfa2dfa` converts with
respect to the stored reference and the state vector only; and a `range` or
`one_of` call that returns the sentinel leaves the stored reference (indeed
the whole automaton) at whatever the previous operation set it to. -/
theorem claim_C9_stored_reference (m : NFA) :
    (∀ c, ((m.ch c).2).nfa = (m.ch c).1) ∧
    (∀ lv rv, ((m.link lv rv).2).nfa = (m.link lv rv).1) ∧
    (∀ lv rv, ((m.select lv rv).2).nfa = (m.select lv rv).1) ∧
    (∀ v, ((m.star v).2).nfa = (m.star v).1) ∧
    (∀ v, ((m.question v).2).nfa = (m.question v).1) ∧
    (∀ s e : Int, s > e → (m.range s e).2 = m) ∧
    ((m.one_of []).2 = m) ∧
    (m.nfa2dfa = nfa2dfaOf m.nfa m.vec) := by
  refine ⟨fun c => rfl, fun lv rv => rfl, fun lv rv => rfl, fun v => rfl, fun v => rfl,
    fun s e h => ?_, rfl, rfl⟩
  simp [NFA.range, h]

/-- Witness for C9 at concrete inputs. -/
theorem claim_C9_stored_reference_witness :
    ((({} : NFA).ch 97).2).nfa = (({} : NFA).ch 97).1 ∧
    (({} : NFA).range 99 97).2 = ({} : NFA) :=
  ⟨(claim_C9_stored_reference {}).1 97,
   (claim_C9_stored_reference {}).2.2.2.2.2.1 99 97 (by decide)⟩

/-! Claim C4: what conversion does after an empty `range`. -/

/-- C4 counterexample: build `ch 120` (the literal for character 120) and
then call `range 99 97` (`lo > hi`); the call does return the sentinel empty
fragment, but converting the automaton afterwards yields a DFA that accepts
the one-character word `[120]` — not a DFA that accepts no input.  This
falsifies the claim that conversion after such a call accepts nothing. -/
theorem claim_C4_counterexample :
    ((({} : NFA).ch 120).2.range 99 97).1 = ({} : NFASubsetRef) ∧
    nfaAcceptsVia ((({} : NFA).ch 120).2.range 99 97).2 [120] = true := by
  constructor
  · simp [NFA.range]
  · simp +decide [nfaAcceptsVia, NFA.range, NFA.ch, vset, vget, newState, NFA.nfa2dfa,
      nfa2dfaOf, calculate_epsilon_closures, ecForLoop, ecLoop, stGet, flagGet,
      ecsGet, ecsAfter1, ecsAfter2, ecsInsertSelf, ecsUnion, RULE_EPSILON, RULE_UNDEFINED,
      REF_UNDEFINED, epsLoopMsg, subsetLoop, subsetFuel, ecUniverse, chClosures, ccStep,
      mapInsertUnion, subsetStepFold, findSetIdx, assembleDFA, applyRec, mapEmplace,
      DFA.acceptsB, DFA.runFrom, DFA.stateAt, mapLookupN]

/-- C4 amended: `range` with `lo > hi` returns the sentinel empty fragment
and leaves the automaton — state sequence and stored overall fragment —
completely unchanged; consequently a subsequent conversion is determined by
the fragment stored before the call and produces exactly the DFA that the
automaton would have produced anyway, not a DFA accepting no input. -/
theorem claim_C4_amended (m : NFA) (s e : Int) (h : s > e) :
    (m.range s e).1 = ({} : NFASubsetRef) ∧ (m.range s e).2 = m ∧
    ((m.range s e).2).nfa2dfa = m.nfa2dfa := by
  refine ⟨?_, ?_, ?_⟩ <;> simp [NFA.range, h]

/-- Witness for the amended C4 at concrete inputs. -/
theorem claim_C4_amended_witness :
    ((({} : NFA).ch 120).2.range 99 97).1 = ({} : NFASubsetRef) ∧
    ((({} : NFA).ch 120).2.range 99 97).2 = (({} : NFA).ch 120).2 ∧
    (((({} : NFA).ch 120).2.range 99 97).2).nfa2dfa = ((({} : NFA).ch 120).2).nfa2dfa :=
  claim_C4_amended (({} : NFA).ch 120).2 99 97 (by decide)

/-! Claim C6: accepting flags of the assembled DFA. -/

theorem applyRec_length (d : List DFAState) (r : DFARefRecord) :
    (applyRec d r).length = d.length := by
  simp [applyRec]

theorem foldl_applyRec_length (recs : List DFARefRecord) (d : List DFAState) :
    (recs.foldl applyRec d).length = d.length := by
  induction recs generalizing d with
  | nil => rfl
  | cons r rs ih => simpa [applyRec_length] using ih (applyRec d r)

theorem applyRec_is_end (d : List DFAState) (r : DFARefRecord) (i : Nat) :
    ((applyRec d r).getD i {}).is_end = (d.getD i {}).is_end := by
  unfold applyRec
  by_cases hr : r.frm < d.length
  · by_cases hi : i = r.frm
    · subst hi
      rw [getD_set_self _ _ _ _ hr]
    · rw [getD_set_other _ _ _ _ _ (fun h => hi h.symm)]
  · rw [set_of_ge _ _ _ (by omega)]

theorem foldl_applyRec_is_end (recs : List DFARefRecord) (d : List DFAState) (i : Nat) :
    ((recs.foldl applyRec d).getD i {}).is_end = (d.getD i {}).is_end := by
  induction recs generalizing d with
  | nil => rfl
  | cons r rs ih => rw [List.foldl_cons, ih (applyRec d r), applyRec_is_end]

/-- C6: in the DFA returned by `nfa2dfa` — assembled, after the discovery
loop has delivered the complete list of reachable DFA states, by marking and
then recording transitions — a DFA state's accepting flag is set if and only
if its member NFA-state set contains the automaton's designated end-state
index (transition recording never touches the flags). -/
theorem claim_C6_accepting_iff_contains_end (fr : NFASubsetRef) (nss : List NFAState)
    (ecs : List (Finset Nat)) (states : List (Finset Nat)) (recs : List DFARefRecord)
    (hcalc : calculate_epsilon_closures nss (List.replicate nss.length ∅) = Except.ok ecs)
    (hloop : subsetLoop nss ecs (subsetFuel ecs) 0 [ecsGet ecs fr.start.toNat] []
      = some (states, recs)) :
    nfa2dfaOf fr nss = some (Except.ok (assembleDFA states recs fr.stop)) ∧
    ∀ i, i < states.length →
      (((assembleDFA states recs fr.stop).stateAt i).is_end = true ↔
        (0 ≤ fr.stop ∧ fr.stop.toNat ∈ states.getD i ∅)) := by
  constructor
  · simp [nfa2dfaOf, hcalc, hloop]
  · intro i hi
    have h1 : ((assembleDFA states recs fr.stop).stateAt i).is_end
        = ((states.map fun S =>
            DFAState.mk (decide (0 ≤ fr.stop) && decide (fr.stop.toNat ∈ S)) []).getD i
            {}).is_end := by
      simpa [assembleDFA, DFA.stateAt] using
        foldl_applyRec_is_end recs
          (states.map fun S =>
            DFAState.mk (decide (0 ≤ fr.stop) && decide (fr.stop.toNat ∈ S)) []) i
    rw [h1, getD_map_lt _ _ _ ∅ _ hi]
    simp

/-- Witness for C6 at the automaton of `ch 97`. -/
theorem claim_C6_accepting_iff_contains_end_witness :
    nfa2dfaOf ⟨0, 1⟩ [⟨97, 1, -1⟩, ⟨-1, -1, -1⟩]
      = some (Except.ok (assembleDFA [{0}, {1}] [⟨0, 97, 1⟩] 1)) ∧
    ∀ i, i < ([{0}, {1}] : List (Finset Nat)).length →
      (((assembleDFA [{0}, {1}] [⟨0, 97, 1⟩] 1).stateAt i).is_end = true ↔
        (0 ≤ (1 : Int) ∧ (1 : Int).toNat ∈ ([{0}, {1}] : List (Finset Nat)).getD i ∅)) :=
  claim_C6_accepting_iff_contains_end ⟨0, 1⟩ [⟨97, 1, -1⟩, ⟨-1, -1, -1⟩] [{0}, {1}]
    [{0}, {1}] [⟨0, 97, 1⟩]
    (by simp +decide [calculate_epsilon_closures, ecForLoop, ecLoop, stGet, flagGet, ecsGet,
      ecsAfter1, ecsAfter2, ecsInsertSelf, ecsUnion, RULE_EPSILON, REF_UNDEFINED, epsLoopMsg])
    (by simp +decide [subsetLoop, subsetFuel, ecUniverse, chClosures, ccStep, mapInsertUnion,
      subsetStepFold, findSetIdx, ecsGet, stGet, RULE_EPSILON, RULE_UNDEFINED])

/-! Claim C5: no duplicate DFA states. -/

theorem findSetIdx_of_mem (states : List (Finset Nat)) (S : Finset Nat) (h : S ∈ states) :
    ∃ idx, findSetIdx states S = some idx ∧ idx < states.length ∧ states.getD idx ∅ = S := by
  induction states with
  | nil => simp at h
  | cons T rest ih =>
    by_cases hT : T = S
    · exact ⟨0, by simp [findSetIdx, hT], by simp, hT⟩
    · have hS : S ∈ rest := by
        rcases List.mem_cons.mp h with h' | h'
        · exact absurd h'.symm hT
        · exact h'
      obtain ⟨idx, h1, h2, h3⟩ := ih hS
      exact ⟨idx + 1, by simp [findSetIdx, hT, h1], by simpa using h2, by simpa using h3⟩

theorem findSetIdx_none_iff (states : List (Finset Nat)) (S : Finset Nat) :
    findSetIdx states S = none ↔ S ∉ states := by
  induction states with
  | nil => simp [findSetIdx]
  | cons T rest ih =>
    by_cases hT : T = S
    · simp [findSetIdx, hT]
    · have hstep : findSetIdx (T :: rest) S = (findSetIdx rest S).map (· + 1) := by
        simp [findSetIdx, hT]
      rw [hstep]
      simp only [Option.map_eq_none', ih, List.mem_cons, not_or]
      exact ⟨fun h => ⟨fun h' => hT h'.symm, h⟩, fun h => h.2⟩

theorem subsetStepFold_nodup (dsi : Nat) (l : List (Int × Finset Nat))
    (st : List (Finset Nat) × List DFARefRecord) (h : st.1.Nodup) :
    ((l.foldl (subsetStepFold dsi) st).1).Nodup := by
  induction l generalizing st with
  | nil => exact h
  | cons entry t ih =>
    apply ih
    unfold subsetStepFold
    cases hf : findSetIdx st.1 entry.2 with
    | some idx => exact h
    | none =>
      have hnot : entry.2 ∉ st.1 := (findSetIdx_none_iff _ _).mp hf
      show (st.1 ++ [entry.2]).Nodup
      rw [List.nodup_append]
      refine ⟨h, List.nodup_singleton _, fun a ha hb => ?_⟩
      have hae : a = entry.2 := by simpa using hb
      exact hnot (hae ▸ ha)

theorem subsetLoop_nodup (nss : List NFAState) (ecs : List (Finset Nat)) (fuel : Nat) :
    ∀ (dsi : Nat) (states : List (Finset Nat)) (recs : List DFARefRecord)
      (states' : List (Finset Nat)) (recs' : List DFARefRecord),
      states.Nodup → subsetLoop nss ecs fuel dsi states recs = some (states', recs') →
      states'.Nodup := by
  induction fuel with
  | zero => intro dsi states recs states' recs' _ h; simp [subsetLoop] at h
  | succ f ih =>
    intro dsi states recs states' recs' hnd h
    unfold subsetLoop at h
    split at h
    · exact ih _ _ _ _ _ (subsetStepFold_nodup _ _ _ hnd) h
    · obtain ⟨h1, h2⟩ := Prod.mk.injEq .. ▸ (Option.some.injEq .. ▸ h)
      exact h1 ▸ hnd

/-- C5: during subset construction no two discovered DFA states ever have
equal member sets — starting from any duplicate-free list the discovery loop
returns a duplicate-free list — because whenever a candidate next-subset is
structurally equal to an already-discovered member set, the recorded
transition targets the (first) existing index and nothing is appended. -/
theorem claim_C5_no_duplicate_dfa_states :
    (∀ (dsi : Nat) (sts : List (Finset Nat)) (rcs : List DFARefRecord)
        (c : Int) (S : Finset Nat), S ∈ sts →
      ∃ idx, idx < sts.length ∧ sts.getD idx ∅ = S ∧
        subsetStepFold dsi (sts, rcs) (c, S) = (sts, rcs ++ [⟨dsi, c, idx⟩])) ∧
    (∀ (nss : List NFAState) (ecs : List (Finset Nat)) (fuel dsi : Nat)
        (sts : List (Finset Nat)) (rcs : List DFARefRecord)
        (sts' : List (Finset Nat)) (rcs' : List DFARefRecord),
      sts.Nodup → subsetLoop nss ecs fuel dsi sts rcs = some (sts', rcs') → sts'.Nodup) := by
  constructor
  · intro dsi sts rcs c S hS
    obtain ⟨idx, h1, h2, h3⟩ := findSetIdx_of_mem sts S hS
    exact ⟨idx, h2, h3, by simp [subsetStepFold, h1]⟩
  · intro nss ecs fuel dsi sts rcs sts' rcs' h1 h2
    exact subsetLoop_nodup nss ecs fuel dsi sts rcs sts' rcs' h1 h2

/-- Witness for C5 at concrete inputs: a candidate equal to the already
discovered state 0 targets index 0 and appends nothing, and a concrete
completed loop keeps its state list duplicate-free. -/
theorem claim_C5_no_duplicate_dfa_states_witness :
    subsetStepFold 0 ([{0}], []) (97, {0}) = ([{0}], [⟨0, 97, 0⟩]) ∧
    ([∅, {0}] : List (Finset Nat)).Nodup := by
  constructor
  · obtain ⟨idx, h1, h2, h3⟩ :=
      claim_C5_no_duplicate_dfa_states.1 0 [{0}] [] 97 {0} (by simp)
    have hidx : idx = 0 := by simp at h1; omega
    subst hidx
    exact h3
  · exact claim_C5_no_duplicate_dfa_states.2 [] [] 3 0 [∅, {0}] [] [∅, {0}] []
      (by decide)
      (by simp +decide [subsetLoop, subsetFuel, ecUniverse, chClosures, ccStep, mapInsertUnion,
        subsetStepFold, findSetIdx, ecsGet, stGet, RULE_EPSILON, RULE_UNDEFINED])

/-! Claim C10: members with undefined rule contribute no transitions. -/

theorem ccStep_skip (nss : List NFAState) (ecs : List (Finset Nat))
    (m : List (Int × Finset Nat)) (si : Nat) (h : ¬keepSym nss si) :
    ccStep nss ecs m si = m := by
  unfold ccStep
  rw [if_pos (not_not.mp h)]

theorem foldl_ccStep_filter (nss : List NFAState) (ecs : List (Finset Nat)) :
    ∀ (l : List Nat) (m0 : List (Int × Finset Nat)),
      l.foldl (ccStep nss ecs) m0
        = (l.filter fun si => decide (keepSym nss si)).foldl (ccStep nss ecs) m0 := by
  intro l
  induction l with
  | nil => intro m0; rfl
  | cons a t ih =>
    intro m0
    by_cases ha : keepSym nss a
    · have hf : ((a :: t).filter fun si => decide (keepSym nss si))
          = a :: (t.filter fun si => decide (keepSym nss si)) := by
        simp [List.filter_cons, ha]
      rw [hf, List.foldl_cons, List.foldl_cons]
      exact ih _
    · have hf : ((a :: t).filter fun si => decide (keepSym nss si))
          = t.filter fun si => decide (keepSym nss si) := by
        simp [List.filter_cons, ha]
      rw [hf, List.foldl_cons, ccStep_skip nss ecs m0 a ha]
      exact ih _

theorem sort_filter_comm (nss : List NFAState) (members : Finset Nat) :
    ((members.sort (· ≤ ·)).filter fun si => decide (keepSym nss si))
      = (members.filter (keepSym nss)).sort (· ≤ ·) := by
  apply List.eq_of_perm_of_sorted (r := (· ≤ ·))
  · rw [← Multiset.coe_eq_coe]
    calc (↑((members.sort (· ≤ ·)).filter fun si => decide (keepSym nss si)) : Multiset Nat)
        = Multiset.filter (keepSym nss) ↑(members.sort (· ≤ ·)) :=
          (Multiset.filter_coe _ _).symm
      _ = Multiset.filter (keepSym nss) members.1 := by rw [Finset.sort_eq]
      _ = (members.filter (keepSym nss)).1 := (Finset.filter_val _ _).symm
      _ = ↑((members.filter (keepSym nss)).sort (· ≤ ·)) := (Finset.sort_eq _ _).symm
  · exact (Finset.sort_sorted _ _).filter _
  · exact Finset.sort_sorted _ _

/-- C10: during subset construction a member NFA state whose rule is the
`UNDEFINED` sentinel contributes no outgoing transitions — the symbol
partition of a member set equals that of the member set with the epsilon and
undefined states filtered out, so an unlinked exit is skipped exactly as
epsilon states are; and a symbol with no recorded transition makes the DFA
run die and the word be rejected, rather than erring. -/
theorem claim_C10_undefined_members_skipped (nss : List NFAState) (ecs : List (Finset Nat)) :
    (∀ members : Finset Nat,
      chClosures nss ecs members = chClosures nss ecs (members.filter (keepSym nss))) ∧
    (∀ (d : DFA) (i : Nat) (c : Int) (w : List Int),
      mapLookupN (d.stateAt i).refs c = none → d.runFrom i (c :: w) = none) ∧
    (∀ (d : DFA) (w : List Int), d.runFrom 0 w = none → d.acceptsB w = false) := by
  refine ⟨fun members => ?_, fun d i c w h => ?_, fun d w h => ?_⟩
  · unfold chClosures
    rw [foldl_ccStep_filter, sort_filter_comm]
  · simp [DFA.runFrom, h]
  · simp [DFA.acceptsB, h]

/-- Witness for C10 at concrete inputs: a two-state member set whose second
state has an undefined rule produces the same partition as the singleton
with that state removed, and a missing transition rejects. -/
theorem claim_C10_undefined_members_skipped_witness :
    chClosures [⟨97, 1, -1⟩, ⟨-1, -1, -1⟩] [{0}, {1}] {0, 1}
      = chClosures [⟨97, 1, -1⟩, ⟨-1, -1, -1⟩] [{0}, {1}]
          (Finset.filter (keepSym [⟨97, 1, -1⟩, ⟨-1, -1, -1⟩]) {0, 1}) ∧
    DFA.runFrom ⟨[{}]⟩ 0 [97] = none ∧
    DFA.acceptsB ⟨[{}]⟩ [97] = false :=
  ⟨(claim_C10_undefined_members_skipped [⟨97, 1, -1⟩, ⟨-1, -1, -1⟩] [{0}, {1}]).1 {0, 1},
   (claim_C10_undefined_members_skipped [⟨97, 1, -1⟩, ⟨-1, -1, -1⟩] [{0}, {1}]).2.1
     ⟨[{}]⟩ 0 97 [] rfl,
   (claim_C10_undefined_members_skipped [⟨97, 1, -1⟩, ⟨-1, -1, -1⟩] [{0}, {1}]).2.2
     ⟨[{}]⟩ [97] (by simp [DFA.runFrom, DFA.stateAt, mapLookupN])⟩

/-! Claim C2: the stack-overflow guard and epsilon self-loops. -/

theorem ecLoop_guard_error (nss : List NFAState) (argi : Nat) (rest : List Nat)
    (flag : List Bool) (ecs : List (Finset Nat))
    (hg : ecs.length < (argi :: rest).length) :
    ecLoop nss (argi :: rest) flag ecs = Except.error epsLoopMsg := by
  rw [ecLoop, dif_pos hg]

theorem ecLoop_error_msg (nss : List NFAState) :
    ∀ (stack : List Nat) (flag : List Bool) (ecs : List (Finset Nat)) (e : String),
      ecLoop nss stack flag ecs = Except.error e → e = epsLoopMsg := by
  intro stack flag ecs
  induction stack, flag, ecs using ecLoop.induct nss with
  | case1 flag ecs =>
    intro e h
    rw [ecLoop] at h
    simp at h
  | case2 flag ecs argi rest hg =>
    intro e h
    rw [ecLoop, dif_pos hg] at h
    exact (Except.error.injEq .. ▸ h).symm
  | case3 flag ecs argi rest hg hrule hp1 ih =>
    intro e h
    rw [ecLoop, dif_neg hg, dif_pos hrule, dif_pos hp1] at h
    exact ih e h
  | case4 flag ecs argi rest hg hrule hp1 hp2 ih =>
    intro e h
    rw [ecLoop, dif_neg hg, dif_pos hrule, dif_neg hp1, dif_pos hp2] at h
    exact ih e h
  | case5 flag ecs argi rest hg hrule hp1 hp2 ih =>
    intro e h
    rw [ecLoop, dif_neg hg, dif_pos hrule, dif_neg hp1, dif_neg hp2] at h
    exact ih e h
  | case6 flag ecs argi rest hg hrule ih =>
    intro e h
    rw [ecLoop, dif_neg hg, dif_neg hrule] at h
    exact ih e h

/-- An epsilon state whose first target is itself can never be resolved: any
traversal that finds it unflagged on the stack keeps pushing it until the
guard trips. -/
theorem ecLoop_selfloop_error (nss : List NFAState) (i : Nat)
    (hrule : (stGet nss i).rule = RULE_EPSILON)
    (href : (stGet nss i).ref1 = (i : Int)) :
    ∀ (stack : List Nat) (flag : List Bool) (ecs : List (Finset Nat)),
      flagGet flag i = false → i ∈ stack →
      ecLoop nss stack flag ecs = Except.error epsLoopMsg := by
  intro stack flag ecs
  induction stack, flag, ecs using ecLoop.induct nss with
  | case1 flag ecs =>
    intro _ hmem
    simp at hmem
  | case2 flag ecs argi rest hg =>
    intro _ _
    exact ecLoop_guard_error nss argi rest flag ecs hg
  | case3 flag ecs argi rest hg hrule1 hp1 ih =>
    intro hflag hmem
    rw [ecLoop, dif_neg hg, dif_pos hrule1, dif_pos hp1]
    exact ih hflag (List.mem_cons_of_mem _ hmem)
  | case4 flag ecs argi rest hg hrule1 hp1 hp2 ih =>
    intro hflag hmem
    rw [ecLoop, dif_neg hg, dif_pos hrule1, dif_neg hp1, dif_pos hp2]
    exact ih hflag (List.mem_cons_of_mem _ hmem)
  | case5 flag ecs argi rest hg hrule1 hp1 hp2 ih =>
    intro hflag hmem
    have hne : argi ≠ i := by
      intro hai
      subst hai
      exact hp1 ⟨by rw [href]; simp [REF_UNDEFINED],
        by rw [href]; simpa using hflag⟩
    rw [ecLoop, dif_neg hg, dif_pos hrule1, dif_neg hp1, dif_neg hp2]
    have hflag' : flagGet (flag.set argi true) i = false := by
      unfold flagGet
      rw [getD_set_other _ _ _ _ _ hne]
      exact hflag
    have hmem' : i ∈ rest := by
      rcases List.mem_cons.mp hmem with h | h
      · exact absurd h.symm hne
      · exact h
    exact ih hflag' hmem'
  | case6 flag ecs argi rest hg hrule1 ih =>
    intro hflag hmem
    have hne : argi ≠ i := by
      intro hai
      subst hai
      exact hrule1 hrule
    rw [ecLoop, dif_neg hg, dif_neg hrule1]
    have hflag' : flagGet (flag.set argi true) i = false := by
      unfold flagGet
      rw [getD_set_other _ _ _ _ _ hne]
      exact hflag
    have hmem' : i ∈ rest := by
      rcases List.mem_cons.mp hmem with h | h
      · exact absurd h.symm hne
      · exact h
    exact ih hflag' hmem'

/-- A state with an epsilon self-loop on its first target stays unflagged
across every successfully completed traversal. -/
theorem ecLoop_ok_unflagged (nss : List NFAState) (i : Nat)
    (hrule : (stGet nss i).rule = RULE_EPSILON)
    (href : (stGet nss i).ref1 = (i : Int)) :
    ∀ (stack : List Nat) (flag : List Bool) (ecs : List (Finset Nat))
      (flag' : List Bool) (ecs' : List (Finset Nat)),
      ecLoop nss stack flag ecs = Except.ok (flag', ecs') →
      flagGet flag i = false → flagGet flag' i = false := by
  intro stack flag ecs
  induction stack, flag, ecs using ecLoop.induct nss with
  | case1 flag ecs =>
    intro flag' ecs' h hflag
    rw [ecLoop] at h
    simp at h
    rw [← h.1]
    exact hflag
  | case2 flag ecs argi rest hg =>
    intro flag' ecs' h hflag
    rw [ecLoop_guard_error nss argi rest flag ecs hg] at h
    simp at h
  | case3 flag ecs argi rest hg hrule1 hp1 ih =>
    intro flag' ecs' h hflag
    rw [ecLoop, dif_neg hg, dif_pos hrule1, dif_pos hp1] at h
    exact ih flag' ecs' h hflag
  | case4 flag ecs argi rest hg hrule1 hp1 hp2 ih =>
    intro flag' ecs' h hflag
    rw [ecLoop, dif_neg hg, dif_pos hrule1, dif_neg hp1, dif_pos hp2] at h
    exact ih flag' ecs' h hflag
  | case5 flag ecs argi rest hg hrule1 hp1 hp2 ih =>
    intro flag' ecs' h hflag
    have hne : argi ≠ i := by
      intro hai
      subst hai
      exact hp1 ⟨by rw [href]; simp [REF_UNDEFINED],
        by rw [href]; simpa using hflag⟩
    rw [ecLoop, dif_neg hg, dif_pos hrule1, dif_neg hp1, dif_neg hp2] at h
    refine ih flag' ecs' h ?_
    unfold flagGet
    rw [getD_set_other _ _ _ _ _ hne]
    exact hflag
  | case6 flag ecs argi rest hg hrule1 ih =>
    intro flag' ecs' h hflag
    have hne : argi ≠ i := fun hai => hrule1 (hai ▸ hrule)
    rw [ecLoop, dif_neg hg, dif_neg hrule1] at h
    refine ih flag' ecs' h ?_
    unfold flagGet
    rw [getD_set_other _ _ _ _ _ hne]
    exact hflag

theorem ecForLoop_selfloop_error (nss : List NFAState) (i : Nat)
    (hrule : (stGet nss i).rule = RULE_EPSILON)
    (href : (stGet nss i).ref1 = (i : Int)) :
    ∀ (is : List Nat) (flag : List Bool) (ecs : List (Finset Nat)),
      i ∈ is → flagGet flag i = false →
      ecForLoop nss is flag ecs = Except.error epsLoopMsg := by
  intro is
  induction is with
  | nil =>
    intro flag ecs hmem _
    simp at hmem
  | cons j t ih =>
    intro flag ecs hmem hflag
    unfold ecForLoop
    by_cases hj : j = i
    · subst hj
      rw [ecLoop_selfloop_error nss j hrule href [j] flag ecs hflag (by simp)]
    · cases hE : ecLoop nss [j] flag ecs with
      | error e =>
        rw [ecLoop_error_msg nss [j] flag ecs e hE]
      | ok pair =>
        have hmem' : i ∈ t := by
          rcases List.mem_cons.mp hmem with h | h
          · exact absurd h.symm hj
          · exact h
        exact ih pair.1 pair.2
          hmem' (ecLoop_ok_unflagged nss i hrule href [j] flag ecs pair.1 pair.2
            (by rw [hE]) hflag)

/-- C2: (a) whenever the traversal's working stack has grown beyond the
total number of states (the size of the closure table), the loop aborts at
once with the fatal epsilon-cycle error — an `Except.error` carrying no
partial closure data; (b) for an NFA containing a state with an epsilon
self-loop on its first target and no escaping second edge, the whole closure
computation terminates with that fatal error (it is a total function, so it
neither hangs nor overflows). -/
theorem claim_C2_guard_and_selfloop :
    (∀ (nss : List NFAState) (argi : Nat) (rest : List Nat) (flag : List Bool)
        (ecs : List (Finset Nat)),
      ecs.length < (argi :: rest).length →
      ecLoop nss (argi :: rest) flag ecs = Except.error epsLoopMsg) ∧
    (∀ (nss : List NFAState) (i : Nat),
      i < nss.length →
      (stGet nss i).rule = RULE_EPSILON →
      (stGet nss i).ref1 = (i : Int) →
      (stGet nss i).ref2 = REF_UNDEFINED →
      calculate_epsilon_closures nss (List.replicate nss.length ∅)
        = Except.error epsLoopMsg) := by
  constructor
  · exact fun nss argi rest flag ecs hg => ecLoop_guard_error nss argi rest flag ecs hg
  · intro nss i hi hrule href _
    unfold calculate_epsilon_closures
    rw [ecForLoop_selfloop_error nss i hrule href (List.range nss.length)
      (List.replicate nss.length false) (List.replicate nss.length ∅)
      (List.mem_range.mpr hi)
      (by unfold flagGet; rw [getD_replicate_lt _ _ _ _ hi])]

/-- Witness for C2: the one-state NFA whose only state is an epsilon
self-loop. -/
theorem claim_C2_guard_and_selfloop_witness :
    ecLoop [⟨-2, 0, -1⟩] [0, 0] [false] [∅] = Except.error epsLoopMsg ∧
    calculate_epsilon_closures [⟨-2, 0, -1⟩] (List.replicate 1 ∅)
      = Except.error epsLoopMsg :=
  ⟨claim_C2_guard_and_selfloop.1 [⟨-2, 0, -1⟩] 0 [0] [false] [∅] (by simp),
   claim_C2_guard_and_selfloop.2 [⟨-2, 0, -1⟩] 0 (by simp)
     (by simp [stGet, RULE_EPSILON]) (by simp [stGet]) (by simp [stGet, REF_UNDEFINED])⟩

/-! Claim C3: correctness of the computed epsilon closures. -/

theorem ecsUnion_length (ecs : List (Finset Nat)) (i : Nat) (s : Finset Nat) :
    (ecsUnion ecs i s).length = ecs.length := by
  simp [ecsUnion]

theorem ecsInsertSelf_length (ecs : List (Finset Nat)) (i : Nat) :
    (ecsInsertSelf ecs i).length = ecs.length := by
  simp [ecsInsertSelf]

theorem ecsAfter1_length (nss : List NFAState) (ecs : List (Finset Nat)) (i : Nat) :
    (ecsAfter1 nss ecs i).length = ecs.length := by
  unfold ecsAfter1
  split
  · simp [ecsUnion]
  · rfl

theorem ecsAfter2_length (nss : List NFAState) (ecs : List (Finset Nat)) (i : Nat) :
    (ecsAfter2 nss ecs i).length = ecs.length := by
  unfold ecsAfter2
  split
  · simp [ecsUnion]
  · rfl

theorem ecsGet_union_self (ecs : List (Finset Nat)) (i : Nat) (s : Finset Nat)
    (h : i < ecs.length) : ecsGet (ecsUnion ecs i s) i = ecsGet ecs i ∪ s := by
  unfold ecsGet ecsUnion
  exact getD_set_self _ _ _ _ h

theorem ecsGet_union_other (ecs : List (Finset Nat)) (i j : Nat) (s : Finset Nat)
    (h : i ≠ j) : ecsGet (ecsUnion ecs i s) j = ecsGet ecs j := by
  unfold ecsGet ecsUnion
  exact getD_set_other _ _ _ _ _ h

theorem ecsGet_union_of_ge (ecs : List (Finset Nat)) (i : Nat) (s : Finset Nat)
    (h : ecs.length ≤ i) : ecsUnion ecs i s = ecs := by
  unfold ecsUnion
  exact set_of_ge _ _ _ h

theorem ecsGet_insertSelf_self (ecs : List (Finset Nat)) (i : Nat)
    (h : i < ecs.length) : ecsGet (ecsInsertSelf ecs i) i = insert i (ecsGet ecs i) := by
  unfold ecsGet ecsInsertSelf
  exact getD_set_self _ _ _ _ h

theorem ecsGet_insertSelf_other (ecs : List (Finset Nat)) (i j : Nat)
    (h : i ≠ j) : ecsGet (ecsInsertSelf ecs i) j = ecsGet ecs j := by
  unfold ecsGet ecsInsertSelf
  exact getD_set_other _ _ _ _ _ h

theorem ecsGet_of_ge (ecs : List (Finset Nat)) (i : Nat) (h : ecs.length ≤ i) :
    ecsGet ecs i = ∅ := by
  unfold ecsGet
  exact getD_eq_of_ge _ _ _ h

theorem flagGet_set_true_self (flag : List Bool) (i : Nat) :
    flagGet (flag.set i true) i = true := by
  by_cases h : i < flag.length
  · unfold flagGet
    exact getD_set_self _ _ _ _ h
  · unfold flagGet
    rw [set_of_ge _ _ _ (by omega)]
    exact getD_eq_of_ge _ _ _ (by omega)

theorem flagGet_set_true_other (flag : List Bool) (i j : Nat) (h : i ≠ j) :
    flagGet (flag.set i true) j = flagGet flag j := by
  unfold flagGet
  exact getD_set_other _ _ _ _ _ h

theorem stGet_mem (nss : List NFAState) (i : Nat) (h : i < nss.length) :
    stGet nss i ∈ nss := by
  unfold stGet
  rw [List.getD_eq_get _ _ h]
  exact List.get_mem _ _ _

theorem wf_state_at (nss : List NFAState) (hwf : WFNfa nss) (i : Nat)
    (h : i < nss.length) : WFState nss.length (stGet nss i) :=
  hwf _ (stGet_mem nss i h)

theorem epsStep_of_ref1 (nss : List NFAState) (argi : Nat)
    (hrule : (stGet nss argi).rule = RULE_EPSILON)
    (h1 : (stGet nss argi).ref1 ≠ REF_UNDEFINED)
    (hge : 0 ≤ (stGet nss argi).ref1) :
    epsStep nss argi (stGet nss argi).ref1.toNat := by
  refine ⟨hrule, Or.inl ?_⟩
  omega

theorem epsStep_of_ref2 (nss : List NFAState) (argi : Nat)
    (hrule : (stGet nss argi).rule = RULE_EPSILON)
    (h2 : (stGet nss argi).ref2 ≠ REF_UNDEFINED)
    (hge : 0 ≤ (stGet nss argi).ref2) :
    epsStep nss argi (stGet nss argi).ref2.toNat := by
  refine ⟨hrule, Or.inr ?_⟩
  omega

theorem epsReach_refl (nss : List NFAState) (i : Nat) : EpsReach nss i i :=
  Relation.ReflTransGen.refl

theorem epsReach_head (nss : List NFAState) {i k j : Nat}
    (h : epsStep nss i k) (h2 : EpsReach nss k j) : EpsReach nss i j :=
  Relation.ReflTransGen.head h h2

theorem epsReach_trans (nss : List NFAState) {i k j : Nat}
    (h : EpsReach nss i k) (h2 : EpsReach nss k j) : EpsReach nss i j :=
  Relation.ReflTransGen.trans h h2

theorem epsReach_cases (nss : List NFAState) {i j : Nat} (h : EpsReach nss i j) :
    i = j ∨ ∃ k, epsStep nss i k ∧ EpsReach nss k j :=
  Relation.ReflTransGen.cases_head h

/-- Unioning the closure entry of an epsilon successor into a state's entry
preserves soundness, and preserves an already-exact entry anywhere. -/
theorem ecsUnion_closure_inv (nss : List NFAState) (ecs : List (Finset Nat))
    (argi t : Nat) (hstep : epsStep nss argi t) (hB : InvSound nss ecs) :
    InvSound nss (ecsUnion ecs argi (ecsGet ecs t)) ∧
    (∀ s, (↑(ecsGet ecs s) : Set Nat) = {j | EpsReach nss s j} →
      (↑(ecsGet (ecsUnion ecs argi (ecsGet ecs t)) s) : Set Nat) = {j | EpsReach nss s j}) := by
  by_cases hlt : argi < ecs.length
  case neg =>
    rw [ecsGet_union_of_ge ecs argi _ (by omega)]
    exact ⟨hB, fun s h => h⟩
  case pos =>
    have hsub : ∀ j, j ∈ ecsGet ecs t → EpsReach nss argi j := fun j hj =>
      epsReach_head nss hstep (hB t j hj)
    constructor
    · intro s j hj
      by_cases hs : argi = s
      · subst hs
        rw [ecsGet_union_self ecs argi _ hlt] at hj
        rcases Finset.mem_union.mp hj with hj | hj
        · exact hB argi j hj
        · exact hsub j hj
      · rw [ecsGet_union_other ecs argi s _ hs] at hj
        exact hB s j hj
    · intro s hEq
      by_cases hs : argi = s
      · subst hs
        rw [ecsGet_union_self ecs argi _ hlt]
        apply Set.eq_of_subset_of_subset
        · intro j hj
          simp only [Finset.coe_union, Set.mem_union] at hj
          rcases hj with hj | hj
          · rw [hEq] at hj
            exact hj
          · exact hsub j hj
        · intro j hj
          simp only [Finset.coe_union, Set.mem_union]
          left
          rw [hEq]
          exact hj
      · rw [ecsGet_union_other ecs argi s _ hs]
        exact hEq

theorem ecsAfter1_get_pos (nss : List NFAState) (ecs : List (Finset Nat)) (argi : Nat)
    (hlt : argi < ecs.length) (hne : (stGet nss argi).ref1 ≠ REF_UNDEFINED) :
    ecsGet (ecsAfter1 nss ecs argi) argi
      = ecsGet ecs argi ∪ ecsGet ecs (stGet nss argi).ref1.toNat := by
  unfold ecsAfter1
  rw [if_pos hne]
  exact ecsGet_union_self ecs argi _ hlt

theorem ecsAfter1_get_other (nss : List NFAState) (ecs : List (Finset Nat)) (argi s : Nat)
    (h : s ≠ argi) : ecsGet (ecsAfter1 nss ecs argi) s = ecsGet ecs s := by
  unfold ecsAfter1
  split
  · exact ecsGet_union_other ecs argi s _ (fun h' => h h'.symm)
  · rfl

theorem ecsAfter1_get_mono (nss : List NFAState) (ecs : List (Finset Nat)) (argi : Nat) :
    ecsGet ecs argi ⊆ ecsGet (ecsAfter1 nss ecs argi) argi := by
  unfold ecsAfter1
  split
  · by_cases hlt : argi < ecs.length
    · rw [ecsGet_union_self ecs argi _ hlt]
      exact Finset.subset_union_left
    · rw [ecsGet_union_of_ge ecs argi _ (by omega)]
  · exact fun x hx => hx

theorem ecsAfter2_get_pos (nss : List NFAState) (ecs : List (Finset Nat)) (argi : Nat)
    (hlt : argi < ecs.length) (hne : (stGet nss argi).ref2 ≠ REF_UNDEFINED) :
    ecsGet (ecsAfter2 nss ecs argi) argi
      = ecsGet ecs argi ∪ ecsGet ecs (stGet nss argi).ref2.toNat := by
  unfold ecsAfter2
  rw [if_pos hne]
  exact ecsGet_union_self ecs argi _ hlt

theorem ecsAfter2_get_other (nss : List NFAState) (ecs : List (Finset Nat)) (argi s : Nat)
    (h : s ≠ argi) : ecsGet (ecsAfter2 nss ecs argi) s = ecsGet ecs s := by
  unfold ecsAfter2
  split
  · exact ecsGet_union_other ecs argi s _ (fun h' => h h'.symm)
  · rfl

theorem ecsAfter2_get_mono (nss : List NFAState) (ecs : List (Finset Nat)) (argi : Nat) :
    ecsGet ecs argi ⊆ ecsGet (ecsAfter2 nss ecs argi) argi := by
  unfold ecsAfter2
  split
  · by_cases hlt : argi < ecs.length
    · rw [ecsGet_union_self ecs argi _ hlt]
      exact Finset.subset_union_left
    · rw [ecsGet_union_of_ge ecs argi _ (by omega)]
  · exact fun x hx => hx

theorem ecsAfter1_closure_inv (nss : List NFAState) (hwf : WFNfa nss)
    (ecs : List (Finset Nat)) (argi : Nat) (hargi : argi < nss.length)
    (hrule : (stGet nss argi).rule = RULE_EPSILON) (hB : InvSound nss ecs) :
    InvSound nss (ecsAfter1 nss ecs argi) ∧
    (∀ s, (↑(ecsGet ecs s) : Set Nat) = {j | EpsReach nss s j} →
      (↑(ecsGet (ecsAfter1 nss ecs argi) s) : Set Nat) = {j | EpsReach nss s j}) := by
  unfold ecsAfter1
  split
  case isTrue h1 =>
    have hge : 0 ≤ (stGet nss argi).ref1 := ((wf_state_at nss hwf argi hargi).1 h1).1
    exact ecsUnion_closure_inv nss ecs argi _ (epsStep_of_ref1 nss argi hrule h1 hge) hB
  case isFalse => exact ⟨hB, fun s h => h⟩

theorem ecsAfter2_closure_inv (nss : List NFAState) (hwf : WFNfa nss)
    (ecs : List (Finset Nat)) (argi : Nat) (hargi : argi < nss.length)
    (hrule : (stGet nss argi).rule = RULE_EPSILON) (hB : InvSound nss ecs) :
    InvSound nss (ecsAfter2 nss ecs argi) ∧
    (∀ s, (↑(ecsGet ecs s) : Set Nat) = {j | EpsReach nss s j} →
      (↑(ecsGet (ecsAfter2 nss ecs argi) s) : Set Nat) = {j | EpsReach nss s j}) := by
  unfold ecsAfter2
  split
  case isTrue h2 =>
    have hge : 0 ≤ (stGet nss argi).ref2 := ((wf_state_at nss hwf argi hargi).2.1 h2).1
    exact ecsUnion_closure_inv nss ecs argi _ (epsStep_of_ref2 nss argi hrule h2 hge) hB
  case isFalse => exact ⟨hB, fun s h => h⟩

theorem ecsInsertSelf_closure_inv (nss : List NFAState) (ecs : List (Finset Nat))
    (argi : Nat) (hB : InvSound nss ecs) :
    InvSound nss (ecsInsertSelf ecs argi) ∧
    (∀ s, (↑(ecsGet ecs s) : Set Nat) = {j | EpsReach nss s j} →
      (↑(ecsGet (ecsInsertSelf ecs argi) s) : Set Nat) = {j | EpsReach nss s j}) := by
  by_cases hlt : argi < ecs.length
  case neg =>
    have : ecsInsertSelf ecs argi = ecs := by
      unfold ecsInsertSelf
      exact set_of_ge _ _ _ (by omega)
    rw [this]
    exact ⟨hB, fun s h => h⟩
  case pos =>
    constructor
    · intro s j hj
      by_cases hs : argi = s
      · subst hs
        rw [ecsGet_insertSelf_self ecs argi hlt] at hj
        rcases Finset.mem_insert.mp hj with hj | hj
        · rw [hj]
          exact epsReach_refl nss argi
        · exact hB argi j hj
      · rw [ecsGet_insertSelf_other ecs argi s hs] at hj
        exact hB s j hj
    · intro s hEq
      by_cases hs : argi = s
      · subst hs
        rw [ecsGet_insertSelf_self ecs argi hlt]
        apply Set.eq_of_subset_of_subset
        · intro j hj
          simp only [Finset.coe_insert, Set.mem_insert_iff] at hj
          rcases hj with hj | hj
          · rw [hj]
            exact epsReach_refl nss argi
          · rw [hEq] at hj
            exact hj
        · intro j hj
          simp only [Finset.coe_insert, Set.mem_insert_iff]
          right
          rw [hEq]
          exact hj
      · rw [ecsGet_insertSelf_other ecs argi s hs]
        exact hEq

/-- Completing an epsilon state whose defined targets are both resolved
makes its closure entry exact and preserves all invariants. -/
theorem complete_eps_invariants (nss : List NFAState) (hwf : WFNfa nss)
    (flag : List Bool) (ecs : List (Finset Nat)) (argi : Nat)
    (hargi : argi < nss.length) (hel : ecs.length = nss.length)
    (hrule : (stGet nss argi).rule = RULE_EPSILON)
    (hp1 : ¬((stGet nss argi).ref1 ≠ REF_UNDEFINED ∧
      flagGet flag (stGet nss argi).ref1.toNat = false))
    (hp2 : ¬((stGet nss argi).ref2 ≠ REF_UNDEFINED ∧
      flagGet flag (stGet nss argi).ref2.toNat = false))
    (hA : InvFlagged nss flag ecs) (hB : InvSound nss ecs) :
    InvFlagged nss (flag.set argi true)
      (ecsInsertSelf (ecsAfter2 nss (ecsAfter1 nss ecs argi) argi) argi) ∧
    InvSound nss (ecsInsertSelf (ecsAfter2 nss (ecsAfter1 nss ecs argi) argi) argi) := by
  have hlt1 : argi < ecs.length := by omega
  have hel1 : (ecsAfter1 nss ecs argi).length = ecs.length := ecsAfter1_length nss ecs argi
  have hlt2 : argi < (ecsAfter1 nss ecs argi).length := by omega
  have hel2 : (ecsAfter2 nss (ecsAfter1 nss ecs argi) argi).length = ecs.length := by
    rw [ecsAfter2_length, hel1]
  have hlt3 : argi < (ecsAfter2 nss (ecsAfter1 nss ecs argi) argi).length := by omega
  have hi1 := ecsAfter1_closure_inv nss hwf ecs argi hargi hrule hB
  have hi2 := ecsAfter2_closure_inv nss hwf (ecsAfter1 nss ecs argi) argi hargi hrule hi1.1
  have hi3 := ecsInsertSelf_closure_inv nss (ecsAfter2 nss (ecsAfter1 nss ecs argi) argi)
    argi hi2.1
  refine ⟨?_, hi3.1⟩
  intro s hsn hfs
  by_cases hs : s = argi
  case neg =>
    have hfs' : flagGet flag s = true := by
      rw [← flagGet_set_true_other flag argi s (fun h' => hs h'.symm)]
      exact hfs
    have hgs : ecsGet (ecsInsertSelf (ecsAfter2 nss (ecsAfter1 nss ecs argi) argi) argi) s
        = ecsGet ecs s := by
      rw [ecsGet_insertSelf_other _ _ _ (fun h' => hs h'.symm),
        ecsAfter2_get_other _ _ _ _ hs, ecsAfter1_get_other _ _ _ _ hs]
    rw [hgs]
    exact hA s hsn hfs'
  case pos =>
    subst hs
    apply Set.eq_of_subset_of_subset
    · intro j hj
      exact hi3.1 s j (Finset.mem_coe.mp hj)
    · intro j hj
      have hreach : EpsReach nss s j := hj
      simp only [Finset.mem_coe]
      rw [ecsGet_insertSelf_self _ _ hlt3]
      rcases epsReach_cases nss hreach with heq | ⟨k, hstep, hkreach⟩
      · exact Finset.mem_insert.mpr (Or.inl heq.symm)
      · refine Finset.mem_insert.mpr (Or.inr ?_)
        rcases hstep.2 with href | href
        · -- step through the first target
          have hne1 : (stGet nss s).ref1 ≠ REF_UNDEFINED := by
            rw [href]; simp [REF_UNDEFINED]
          have hk1 : (stGet nss s).ref1.toNat = k := by rw [href]; simp
          have hfk : flagGet flag k = true := by
            rcases not_and_or.mp hp1 with h' | h'
            · exact absurd hne1 h'
            · rw [hk1] at h'
              simpa using h'
          have hkn : k < nss.length := by
            have := ((wf_state_at nss hwf s hargi).1 hne1).2
            rw [href] at this
            omega
          have hjk : j ∈ ecsGet ecs k := by
            have hAk := hA k hkn hfk
            have : j ∈ (↑(ecsGet ecs k) : Set Nat) := by
              rw [hAk]
              exact hkreach
            exact Finset.mem_coe.mp this
          have hj1 : j ∈ ecsGet (ecsAfter1 nss ecs s) s := by
            rw [ecsAfter1_get_pos nss ecs s hlt1 hne1, hk1]
            exact Finset.mem_union_right _ hjk
          exact ecsAfter2_get_mono nss (ecsAfter1 nss ecs s) s hj1
        · -- step through the second target
          have hne2 : (stGet nss s).ref2 ≠ REF_UNDEFINED := by
            rw [href]; simp [REF_UNDEFINED]
          have hk2 : (stGet nss s).ref2.toNat = k := by rw [href]; simp
          have hfk : flagGet flag k = true := by
            rcases not_and_or.mp hp2 with h' | h'
            · exact absurd hne2 h'
            · rw [hk2] at h'
              simpa using h'
          have hkn : k < nss.length := by
            have := ((wf_state_at nss hwf s hargi).2.1 hne2).2
            rw [href] at this
            omega
          have hj1k : j ∈ ecsGet (ecsAfter1 nss ecs s) k := by
            by_cases hks : k = s
            · subst hks
              have hAk := hA k hkn hfk
              have hjk : j ∈ ecsGet ecs k := by
                have : j ∈ (↑(ecsGet ecs k) : Set Nat) := by
                  rw [hAk]
                  exact hkreach
                exact Finset.mem_coe.mp this
              exact ecsAfter1_get_mono nss ecs k hjk
            · rw [ecsAfter1_get_other nss ecs s k hks]
              have hAk := hA k hkn hfk
              have : j ∈ (↑(ecsGet ecs k) : Set Nat) := by
                rw [hAk]
                exact hkreach
              exact Finset.mem_coe.mp this
          rw [ecsAfter2_get_pos nss (ecsAfter1 nss ecs s) s hlt2 hne2, hk2]
          exact Finset.mem_union_right _ hj1k

/-- Completing a non-epsilon state makes its closure entry exact (its
reachability set is just itself) and preserves all invariants. -/
theorem complete_noneps_invariants (nss : List NFAState) (flag : List Bool)
    (ecs : List (Finset Nat)) (argi : Nat)
    (hargi : argi < nss.length) (hel : ecs.length = nss.length)
    (hrule : ¬(stGet nss argi).rule = RULE_EPSILON)
    (hA : InvFlagged nss flag ecs) (hB : InvSound nss ecs) :
    InvFlagged nss (flag.set argi true) (ecsInsertSelf ecs argi) ∧
    InvSound nss (ecsInsertSelf ecs argi) := by
  have hlt1 : argi < ecs.length := by omega
  have hi3 := ecsInsertSelf_closure_inv nss ecs argi hB
  refine ⟨?_, hi3.1⟩
  intro s hsn hfs
  by_cases hs : s = argi
  case neg =>
    have hfs' : flagGet flag s = true := by
      rw [← flagGet_set_true_other flag argi s (fun h' => hs h'.symm)]
      exact hfs
    rw [ecsGet_insertSelf_other _ _ _ (fun h' => hs h'.symm)]
    exact hA s hsn hfs'
  case pos =>
    subst hs
    apply Set.eq_of_subset_of_subset
    · intro j hj
      exact hi3.1 s j (Finset.mem_coe.mp hj)
    · intro j hj
      have hreach : EpsReach nss s j := hj
      simp only [Finset.mem_coe]
      rw [ecsGet_insertSelf_self _ _ hlt1]
      rcases epsReach_cases nss hreach with heq | ⟨k, hstep, hkreach⟩
      · exact Finset.mem_insert.mpr (Or.inl heq.symm)
      · exact absurd hstep.1 hrule

/-- Main invariant theorem for the traversal loop: a successful run
preserves lengths and both invariants, only raises flags, and flags every
state that was on the stack. -/
theorem ecLoop_ok_closure (nss : List NFAState) (hwf : WFNfa nss) :
    ∀ (stack : List Nat) (flag : List Bool) (ecs : List (Finset Nat)),
      flag.length = nss.length → ecs.length = nss.length →
      (∀ s ∈ stack, s < nss.length) →
      InvFlagged nss flag ecs → InvSound nss ecs →
      ∀ (flag' : List Bool) (ecs' : List (Finset Nat)),
        ecLoop nss stack flag ecs = Except.ok (flag', ecs') →
        flag'.length = nss.length ∧ ecs'.length = nss.length ∧
        InvFlagged nss flag' ecs' ∧ InvSound nss ecs' ∧
        (∀ s, flagGet flag s = true → flagGet flag' s = true) ∧
        (∀ s ∈ stack, flagGet flag' s = true) := by
  intro stack flag ecs
  induction stack, flag, ecs using ecLoop.induct nss with
  | case1 flag ecs =>
    intro hfl hel hst hA hB flag' ecs' h
    rw [ecLoop] at h
    simp only [Except.ok.injEq, Prod.mk.injEq] at h
    obtain ⟨h1, h2⟩ := h
    subst h1
    subst h2
    exact ⟨hfl, hel, hA, hB, fun s h => h, fun s hs => absurd hs (List.not_mem_nil s)⟩
  | case2 flag ecs argi rest hg =>
    intro hfl hel hst hA hB flag' ecs' h
    rw [ecLoop_guard_error nss argi rest flag ecs hg] at h
    simp at h
  | case3 flag ecs argi rest hg hrule hp1 ih =>
    intro hfl hel hst hA hB flag' ecs' h
    rw [ecLoop, dif_neg hg, dif_pos hrule, dif_pos hp1] at h
    have hargi : argi < nss.length := hst argi (by simp)
    have hs1 : (stGet nss argi).ref1.toNat < nss.length := by
      have := ((wf_state_at nss hwf argi hargi).1 hp1.1).2
      omega
    have hst' : ∀ s ∈ (stGet nss argi).ref1.toNat :: argi :: rest, s < nss.length := by
      intro s hs
      rcases List.mem_cons.mp hs with h' | h'
      · rw [h']
        exact hs1
      · exact hst s h'
    obtain ⟨c1, c2, c3, c4, c5, c6⟩ := ih hfl hel hst' hA hB flag' ecs' h
    exact ⟨c1, c2, c3, c4, c5, fun s hs => c6 s (List.mem_cons_of_mem _ hs)⟩
  | case4 flag ecs argi rest hg hrule hp1 hp2 ih =>
    intro hfl hel hst hA hB flag' ecs' h
    rw [ecLoop, dif_neg hg, dif_pos hrule, dif_neg hp1, dif_pos hp2] at h
    have hargi : argi < nss.length := hst argi (by simp)
    have hs2 : (stGet nss argi).ref2.toNat < nss.length := by
      have := ((wf_state_at nss hwf argi hargi).2.1 hp2.1).2
      omega
    have hst' : ∀ s ∈ (stGet nss argi).ref2.toNat :: argi :: rest, s < nss.length := by
      intro s hs
      rcases List.mem_cons.mp hs with h' | h'
      · rw [h']
        exact hs2
      · exact hst s h'
    have hi1 := ecsAfter1_closure_inv nss hwf ecs argi hargi hrule hB
    have hA1 : InvFlagged nss flag (ecsAfter1 nss ecs argi) :=
      fun s hsn hf => hi1.2 s (hA s hsn hf)
    have hel1 : (ecsAfter1 nss ecs argi).length = nss.length := by
      rw [ecsAfter1_length, hel]
    obtain ⟨c1, c2, c3, c4, c5, c6⟩ := ih hfl hel1 hst' hA1 hi1.1 flag' ecs' h
    exact ⟨c1, c2, c3, c4, c5, fun s hs => c6 s (List.mem_cons_of_mem _ hs)⟩
  | case5 flag ecs argi rest hg hrule hp1 hp2 ih =>
    intro hfl hel hst hA hB flag' ecs' h
    rw [ecLoop, dif_neg hg, dif_pos hrule, dif_neg hp1, dif_neg hp2] at h
    have hargi : argi < nss.length := hst argi (by simp)
    have hcomp := complete_eps_invariants nss hwf flag ecs argi hargi hel hrule hp1 hp2 hA hB
    have hfl' : (flag.set argi true).length = nss.length := by
      rw [List.length_set, hfl]
    have hel' : (ecsInsertSelf (ecsAfter2 nss (ecsAfter1 nss ecs argi) argi) argi).length
        = nss.length := by
      rw [ecsInsertSelf_length, ecsAfter2_length, ecsAfter1_length, hel]
    have hst' : ∀ s ∈ rest, s < nss.length := fun s hs => hst s (List.mem_cons_of_mem _ hs)
    obtain ⟨c1, c2, c3, c4, c5, c6⟩ := ih hfl' hel' hst' hcomp.1 hcomp.2 flag' ecs' h
    refine ⟨c1, c2, c3, c4, ?_, ?_⟩
    · intro s hfs
      apply c5
      by_cases hs : argi = s
      · rw [← hs]
        exact flagGet_set_true_self flag argi
      · rw [flagGet_set_true_other flag argi s hs]
        exact hfs
    · intro s hs
      rcases List.mem_cons.mp hs with h' | h'
      · rw [h']
        exact c5 argi (flagGet_set_true_self flag argi)
      · exact c6 s h'
  | case6 flag ecs argi rest hg hrule ih =>
    intro hfl hel hst hA hB flag' ecs' h
    rw [ecLoop, dif_neg hg, dif_neg hrule] at h
    have hargi : argi < nss.length := hst argi (by simp)
    have hcomp := complete_noneps_invariants nss flag ecs argi hargi hel hrule hA hB
    have hfl' : (flag.set argi true).length = nss.length := by
      rw [List.length_set, hfl]
    have hel' : (ecsInsertSelf ecs argi).length = nss.length := by
      rw [ecsInsertSelf_length, hel]
    have hst' : ∀ s ∈ rest, s < nss.length := fun s hs => hst s (List.mem_cons_of_mem _ hs)
    obtain ⟨c1, c2, c3, c4, c5, c6⟩ := ih hfl' hel' hst' hcomp.1 hcomp.2 flag' ecs' h
    refine ⟨c1, c2, c3, c4, ?_, ?_⟩
    · intro s hfs
      apply c5
      by_cases hs : argi = s
      · rw [← hs]
        exact flagGet_set_true_self flag argi
      · rw [flagGet_set_true_other flag argi s hs]
        exact hfs
    · intro s hs
      rcases List.mem_cons.mp hs with h' | h'
      · rw [h']
        exact c5 argi (flagGet_set_true_self flag argi)
      · exact c6 s h'

theorem ecLoop_flag_mono (nss : List NFAState) :
    ∀ (stack : List Nat) (flag : List Bool) (ecs : List (Finset Nat))
      (flag' : List Bool) (ecs' : List (Finset Nat)),
      ecLoop nss stack flag ecs = Except.ok (flag', ecs') →
      ∀ i, flagGet flag i = true → flagGet flag' i = true := by
  intro stack flag ecs
  induction stack, flag, ecs using ecLoop.induct nss with
  | case1 flag ecs =>
    intro flag' ecs' h i hi
    rw [ecLoop] at h
    simp only [Except.ok.injEq, Prod.mk.injEq] at h
    rw [← h.1]
    exact hi
  | case2 flag ecs argi rest hg =>
    intro flag' ecs' h i hi
    rw [ecLoop_guard_error nss argi rest flag ecs hg] at h
    simp at h
  | case3 flag ecs argi rest hg hrule hp1 ih =>
    intro flag' ecs' h i hi
    rw [ecLoop, dif_neg hg, dif_pos hrule, dif_pos hp1] at h
    exact ih flag' ecs' h i hi
  | case4 flag ecs argi rest hg hrule hp1 hp2 ih =>
    intro flag' ecs' h i hi
    rw [ecLoop, dif_neg hg, dif_pos hrule, dif_neg hp1, dif_pos hp2] at h
    exact ih flag' ecs' h i hi
  | case5 flag ecs argi rest hg hrule hp1 hp2 ih =>
    intro flag' ecs' h i hi
    rw [ecLoop, dif_neg hg, dif_pos hrule, dif_neg hp1, dif_neg hp2] at h
    refine ih flag' ecs' h i ?_
    by_cases hs : argi = i
    · rw [← hs]
      exact flagGet_set_true_self flag argi
    · rw [flagGet_set_true_other flag argi i hs]
      exact hi
  | case6 flag ecs argi rest hg hrule ih =>
    intro flag' ecs' h i hi
    rw [ecLoop, dif_neg hg, dif_neg hrule] at h
    refine ih flag' ecs' h i ?_
    by_cases hs : argi = i
    · rw [← hs]
      exact flagGet_set_true_self flag argi
    · rw [flagGet_set_true_other flag argi i hs]
      exact hi

theorem ecForLoop_flag_mono (nss : List NFAState) :
    ∀ (is : List Nat) (flag : List Bool) (ecs : List (Finset Nat))
      (flag' : List Bool) (ecs' : List (Finset Nat)),
      ecForLoop nss is flag ecs = Except.ok (flag', ecs') →
      ∀ i, flagGet flag i = true → flagGet flag' i = true := by
  intro is
  induction is with
  | nil =>
    intro flag ecs flag' ecs' h i hi
    unfold ecForLoop at h
    simp only [Except.ok.injEq, Prod.mk.injEq] at h
    rw [← h.1]
    exact hi
  | cons j t ih =>
    intro flag ecs flag' ecs' h i hi
    unfold ecForLoop at h
    cases hE : ecLoop nss [j] flag ecs with
    | error e =>
      rw [hE] at h
      simp at h
    | ok pair =>
      rw [hE] at h
      exact ih pair.1 pair.2 flag' ecs' h i
        (ecLoop_flag_mono nss [j] flag ecs pair.1 pair.2 (by rw [hE]) i hi)

theorem ecForLoop_closure (nss : List NFAState) (hwf : WFNfa nss) :
    ∀ (is : List Nat) (flag : List Bool) (ecs : List (Finset Nat)),
      flag.length = nss.length → ecs.length = nss.length →
      (∀ i ∈ is, i < nss.length) →
      InvFlagged nss flag ecs → InvSound nss ecs →
      ∀ (flag' : List Bool) (ecs' : List (Finset Nat)),
        ecForLoop nss is flag ecs = Except.ok (flag', ecs') →
        InvFlagged nss flag' ecs' ∧
        (∀ i ∈ is, flagGet flag' i = true) := by
  intro is
  induction is with
  | nil =>
    intro flag ecs hfl hel _ hA hB flag' ecs' h
    unfold ecForLoop at h
    simp only [Except.ok.injEq, Prod.mk.injEq] at h
    obtain ⟨h1, h2⟩ := h
    subst h1
    subst h2
    exact ⟨hA, fun i hi => absurd hi (List.not_mem_nil i)⟩
  | cons j t ih =>
    intro flag ecs hfl hel his hA hB flag' ecs' h
    unfold ecForLoop at h
    cases hE : ecLoop nss [j] flag ecs with
    | error e =>
      rw [hE] at h
      simp at h
    | ok pair =>
      rw [hE] at h
      obtain ⟨c1, c2, c3, c4, c5, c6⟩ :=
        ecLoop_ok_closure nss hwf [j] flag ecs hfl hel
          (by intro s hs; rw [List.mem_singleton.mp hs]; exact his j (by simp))
          hA hB pair.1 pair.2 (by rw [hE])
      obtain ⟨d1, d2⟩ := ih pair.1 pair.2 c1 c2
        (fun i hi => his i (List.mem_cons_of_mem _ hi)) c3 c4 flag' ecs' h
      refine ⟨d1, fun i hi => ?_⟩
      rcases List.mem_cons.mp hi with h' | h'
      · -- the seed j itself was flagged by its own run, and flags persist
        subst h'
        -- flags only rise across the remaining runs
        have hj := c6 i (by simp)
        -- propagate through the tail of the outer loop
        clear d2
        -- use a monotonicity pass over the remaining ecForLoop run
        exact ecForLoop_flag_mono nss t pair.1 pair.2 flag' ecs' h i hj
      · exact d2 i h'

theorem ecsGet_replicate (n s : Nat) : ecsGet (List.replicate n ∅) s = ∅ := by
  by_cases h : s < n
  · unfold ecsGet
    rw [getD_replicate_lt _ _ _ _ h]
  · exact ecsGet_of_ge _ _ (by simpa using (by omega : n ≤ s))

/-- Correctness of the whole closure computation: on a well-formed state
vector, a successful run returns, for every state index, exactly its epsilon
reachability set. -/
theorem calculate_closures_correct (nss : List NFAState) (hwf : WFNfa nss)
    (ecs' : List (Finset Nat))
    (h : calculate_epsilon_closures nss (List.replicate nss.length ∅) = Except.ok ecs') :
    ∀ i, i < nss.length → (↑(ecsGet ecs' i) : Set Nat) = {j | EpsReach nss i j} := by
  unfold calculate_epsilon_closures at h
  cases hE : ecForLoop nss (List.range nss.length) (List.replicate nss.length false)
      (List.replicate nss.length ∅) with
  | error e =>
    rw [hE] at h
    simp at h
  | ok pair =>
    rw [hE] at h
    simp only [Except.ok.injEq] at h
    subst h
    obtain ⟨d1, d2⟩ := ecForLoop_closure nss hwf (List.range nss.length)
      (List.replicate nss.length false) (List.replicate nss.length ∅)
      (by simp) (by simp)
      (fun i hi => List.mem_range.mp hi)
      (by
        intro s hsn hfs
        exfalso
        unfold flagGet at hfs
        rw [getD_replicate_lt _ _ _ _ hsn] at hfs
        exact Bool.false_ne_true hfs)
      (by
        intro s j hj
        rw [ecsGet_replicate] at hj
        exact absurd hj (Finset.not_mem_empty j))
      pair.1 pair.2 (by rw [hE])
    intro i hi
    exact d1 i hi (d2 i (List.mem_range.mpr hi))

/-- C3: on every well-formed frozen NFA on which the epsilon-closure
computation completes without the fatal error, the computed closure of every
state index `i` is exactly the set of indices reachable from `i` by zero or
more epsilon transitions, and it contains `i` itself. -/
theorem claim_C3_closures_exact (nss : List NFAState) (ecs : List (Finset Nat))
    (hwf : WFNfa nss)
    (hok : calculate_epsilon_closures nss (List.replicate nss.length ∅) = Except.ok ecs)
    (i : Nat) (hi : i < nss.length) :
    (↑(ecsGet ecs i) : Set Nat) = {j | EpsReach nss i j} ∧ i ∈ ecsGet ecs i := by
  have hq := calculate_closures_correct nss hwf ecs hok i hi
  refine ⟨hq, ?_⟩
  have : i ∈ (↑(ecsGet ecs i) : Set Nat) := by
    rw [hq]
    exact epsReach_refl nss i
  exact Finset.mem_coe.mp this

/-- Witness for C3 at the two-state automaton of `ch 97`. -/
theorem claim_C3_closures_exact_witness :
    (↑(ecsGet [{0}, {1}] 0) : Set Nat)
      = {j | EpsReach [⟨97, 1, -1⟩, ⟨-1, -1, -1⟩] 0 j} ∧
    0 ∈ ecsGet [{0}, {1}] 0 :=
  claim_C3_closures_exact [⟨97, 1, -1⟩, ⟨-1, -1, -1⟩] [{0}, {1}]
    (by unfold WFNfa WFState; decide)
    (by simp +decide [calculate_epsilon_closures, ecForLoop, ecLoop, stGet, flagGet, ecsGet,
      ecsAfter1, ecsAfter2, ecsInsertSelf, ecsUnion, RULE_EPSILON, REF_UNDEFINED, epsLoopMsg])
    0 (by simp)

/-! Claim C1: machinery — the symbol map built per DFA state. -/

theorem mapLookupF_nil (c : Int) : mapLookupF [] c = none := rfl

theorem mapLookupF_cons (k : Int) (v : Finset Nat) (rest : List (Int × Finset Nat)) (c : Int) :
    mapLookupF ((k, v) :: rest) c = if c = k then some v else mapLookupF rest c := rfl

theorem mapInsertUnion_nil (c : Int) (s : Finset Nat) :
    mapInsertUnion [] c s = [(c, s)] := rfl

theorem mapInsertUnion_cons_lt {k c : Int} (v : Finset Nat) (rest : List (Int × Finset Nat))
    (s : Finset Nat) (h : c < k) :
    mapInsertUnion ((k, v) :: rest) c s = (c, s) :: (k, v) :: rest := by
  unfold mapInsertUnion
  rw [if_pos h]

theorem mapInsertUnion_cons_eq {k c : Int} (v : Finset Nat) (rest : List (Int × Finset Nat))
    (s : Finset Nat) (h : c = k) :
    mapInsertUnion ((k, v) :: rest) c s = (k, v ∪ s) :: rest := by
  unfold mapInsertUnion
  rw [if_neg (by omega), if_pos h]

theorem mapInsertUnion_cons_gt {k c : Int} (v : Finset Nat) (rest : List (Int × Finset Nat))
    (s : Finset Nat) (h1 : ¬c < k) (h2 : ¬c = k) :
    mapInsertUnion ((k, v) :: rest) c s = (k, v) :: mapInsertUnion rest c s := by
  conv_lhs => unfold mapInsertUnion
  rw [if_neg h1, if_neg h2]

theorem mapLookupF_none_of_lt (m : List (Int × Finset Nat)) (c : Int)
    (hall : ∀ p ∈ m, c < p.1) : mapLookupF m c = none := by
  induction m with
  | nil => rfl
  | cons kv rest ih =>
    obtain ⟨k, v⟩ := kv
    rw [mapLookupF_cons]
    rw [if_neg (by have := hall (k, v) (List.mem_cons_self _ _); simp at this; omega)]
    exact ih fun p hp => hall p (List.mem_cons_of_mem _ hp)

theorem mapLookupF_pairwise_mem (m : List (Int × Finset Nat))
    (hp : List.Pairwise (fun p q => p.1 < q.1) m) (c : Int) (S : Finset Nat) :
    ((c, S) ∈ m ↔ mapLookupF m c = some S) := by
  induction m with
  | nil => simp [mapLookupF_nil]
  | cons kv rest ih =>
    obtain ⟨k, v⟩ := kv
    obtain ⟨hhead, htail⟩ := List.pairwise_cons.mp hp
    rw [mapLookupF_cons]
    by_cases hc : c = k
    · subst hc
      rw [if_pos rfl]
      constructor
      · intro h
        rcases List.mem_cons.mp h with h | h
        · have h2 := congrArg Prod.snd h
          simp only at h2
          rw [h2]
        · exfalso
          have := hhead (c, S) h
          simp at this
      · intro h
        have hv : v = S := Option.some.inj h
        rw [← hv]
        exact List.mem_cons_self _ _
    · rw [if_neg hc]
      rw [← ih htail]
      constructor
      · intro h
        rcases List.mem_cons.mp h with h | h
        · exact absurd (congrArg Prod.fst h) (by simpa using hc)
        · exact h
      · exact fun h => List.mem_cons_of_mem _ h

theorem mapInsertUnion_mem_key (m : List (Int × Finset Nat)) (c : Int) (s : Finset Nat) :
    ∀ p ∈ mapInsertUnion m c s, p.1 = c ∨ p ∈ m := by
  induction m with
  | nil =>
    intro p hp
    rw [mapInsertUnion_nil] at hp
    simp only [List.mem_cons, List.not_mem_nil, or_false] at hp
    left
    rw [hp]
  | cons kv rest ih =>
    obtain ⟨k, v⟩ := kv
    intro p hp
    by_cases h1 : c < k
    · rw [mapInsertUnion_cons_lt v rest s h1] at hp
      rcases List.mem_cons.mp hp with h | h
      · left
        rw [h]
      · right
        exact h
    · by_cases h2 : c = k
      · rw [mapInsertUnion_cons_eq v rest s h2] at hp
        rcases List.mem_cons.mp hp with h | h
        · left
          rw [h, h2]
        · right
          exact List.mem_cons_of_mem _ h
      · rw [mapInsertUnion_cons_gt v rest s h1 h2] at hp
        rcases List.mem_cons.mp hp with h | h
        · right
          rw [h]
          exact List.mem_cons_self _ _
        · rcases ih p h with h' | h'
          · left
            exact h'
          · right
            exact List.mem_cons_of_mem _ h'

theorem mapInsertUnion_pairwise (m : List (Int × Finset Nat)) (c : Int) (s : Finset Nat)
    (hp : List.Pairwise (fun p q => p.1 < q.1) m) :
    List.Pairwise (fun p q => p.1 < q.1) (mapInsertUnion m c s) := by
  induction m with
  | nil =>
    rw [mapInsertUnion_nil]
    simp
  | cons kv rest ih =>
    obtain ⟨k, v⟩ := kv
    obtain ⟨hhead, htail⟩ := List.pairwise_cons.mp hp
    by_cases h1 : c < k
    · rw [mapInsertUnion_cons_lt v rest s h1]
      refine List.pairwise_cons.mpr ⟨?_, hp⟩
      intro p hp'
      rcases List.mem_cons.mp hp' with h | h
      · rw [h]
        exact h1
      · exact lt_trans h1 (hhead p h)
    · by_cases h2 : c = k
      · rw [mapInsertUnion_cons_eq v rest s h2]
        exact List.pairwise_cons.mpr ⟨hhead, htail⟩
      · rw [mapInsertUnion_cons_gt v rest s h1 h2]
        refine List.pairwise_cons.mpr ⟨?_, ih htail⟩
        intro p hp'
        rcases mapInsertUnion_mem_key rest c s p hp' with h | h
        · rw [h]
          omega
        · exact hhead p h

theorem mapInsertUnion_lookup (m : List (Int × Finset Nat)) (c : Int) (s : Finset Nat)
    (hp : List.Pairwise (fun p q => p.1 < q.1) m) (c' : Int) :
    mapLookupF (mapInsertUnion m c s) c'
      = if c' = c then some ((mapLookupF m c).getD ∅ ∪ s) else mapLookupF m c' := by
  induction m with
  | nil =>
    by_cases h : c' = c
    · subst h
      rw [mapInsertUnion_nil, mapLookupF_cons, if_pos rfl, if_pos rfl, mapLookupF_nil]
      simp
    · rw [mapInsertUnion_nil, mapLookupF_cons, if_neg h, if_neg h]
  | cons kv rest ih =>
    obtain ⟨k, v⟩ := kv
    obtain ⟨hhead, htail⟩ := List.pairwise_cons.mp hp
    by_cases h1 : c < k
    · rw [mapInsertUnion_cons_lt v rest s h1, mapLookupF_cons]
      have hnone : mapLookupF ((k, v) :: rest) c = none := by
        refine mapLookupF_none_of_lt _ _ ?_
        intro p hp'
        rcases List.mem_cons.mp hp' with h | h
        · rw [h]
          exact h1
        · exact lt_trans h1 (hhead p h)
      by_cases h : c' = c
      · rw [if_pos h, if_pos h, hnone]
        simp
      · rw [if_neg h, if_neg h]
    · by_cases h2 : c = k
      · subst h2
        rw [mapInsertUnion_cons_eq v rest s rfl, mapLookupF_cons, mapLookupF_cons]
        by_cases h : c' = c
        · rw [if_pos h, if_pos h, if_pos rfl]
          simp
        · rw [if_neg h, if_neg h, mapLookupF_cons, if_neg h]
      · rw [mapInsertUnion_cons_gt v rest s h1 h2, mapLookupF_cons]
        by_cases h : c' = c
        · rw [if_pos h]
          rw [if_neg (show ¬c' = k by rw [h]; exact h2)]
          rw [ih htail, if_pos h, mapLookupF_cons, if_neg h2]
        · rw [if_neg h]
          by_cases hk : c' = k
          · rw [if_pos hk, mapLookupF_cons, if_pos hk]
          · rw [if_neg hk, ih htail, if_neg h, mapLookupF_cons, if_neg hk]

theorem codeMove_mem (nss : List NFAState) (ecs : List (Finset Nat)) (S : Finset Nat)
    (c : Int) (x : Nat) :
    x ∈ codeMove nss ecs S c ↔
      ∃ si ∈ S, (stGet nss si).rule = c ∧ keepSym nss si ∧
        x ∈ ecsGet ecs (stGet nss si).ref1.toNat := by
  unfold codeMove keepSym
  simp only [Finset.mem_biUnion, Finset.mem_filter, not_or]
  tauto

theorem foldl_ccStep_spec (nss : List NFAState) (ecs : List (Finset Nat)) :
    ∀ (l : List Nat) (m0 : List (Int × Finset Nat)),
      List.Pairwise (fun p q => p.1 < q.1) m0 →
      List.Pairwise (fun p q => p.1 < q.1) (l.foldl (ccStep nss ecs) m0) ∧
      (∀ c, (mapLookupF (l.foldl (ccStep nss ecs) m0) c).isSome ↔
        ((mapLookupF m0 c).isSome ∨
          ∃ si ∈ l, (stGet nss si).rule = c ∧ keepSym nss si)) ∧
      (∀ c x, x ∈ (mapLookupF (l.foldl (ccStep nss ecs) m0) c).getD ∅ ↔
        (x ∈ (mapLookupF m0 c).getD ∅ ∨
          ∃ si ∈ l, (stGet nss si).rule = c ∧ keepSym nss si ∧
            x ∈ ecsGet ecs (stGet nss si).ref1.toNat)) := by
  intro l
  induction l with
  | nil =>
    intro m0 hp
    refine ⟨hp, fun c => ?_, fun c x => ?_⟩ <;> simp
  | cons a t ih =>
    intro m0 hp
    by_cases ha : keepSym nss a
    case neg =>
      have hskip : ccStep nss ecs m0 a = m0 := ccStep_skip nss ecs m0 a ha
      rw [List.foldl_cons, hskip]
      obtain ⟨d1, d2, d3⟩ := ih m0 hp
      refine ⟨d1, fun c => ?_, fun c x => ?_⟩
      · rw [d2 c]
        simp only [List.mem_cons]
        constructor
        · intro h
          rcases h with h | ⟨si, hsi, h2, h3⟩
          · exact Or.inl h
          · exact Or.inr ⟨si, Or.inr hsi, h2, h3⟩
        · intro h
          rcases h with h | ⟨si, hsi, h2, h3⟩
          · exact Or.inl h
          · rcases hsi with hsi | hsi
            · exact absurd h3 (hsi ▸ ha)
            · exact Or.inr ⟨si, hsi, h2, h3⟩
      · rw [d3 c x]
        simp only [List.mem_cons]
        constructor
        · intro h
          rcases h with h | ⟨si, hsi, h2, h3, h4⟩
          · exact Or.inl h
          · exact Or.inr ⟨si, Or.inr hsi, h2, h3, h4⟩
        · intro h
          rcases h with h | ⟨si, hsi, h2, h3, h4⟩
          · exact Or.inl h
          · rcases hsi with hsi | hsi
            · exact absurd h3 (hsi ▸ ha)
            · exact Or.inr ⟨si, hsi, h2, h3, h4⟩
    case pos =>
      have hstep : ccStep nss ecs m0 a
          = mapInsertUnion m0 (stGet nss a).rule (ecsGet ecs (stGet nss a).ref1.toNat) := by
        unfold ccStep
        rw [if_neg (by unfold keepSym at ha; exact ha)]
      rw [List.foldl_cons, hstep]
      have hp1 := mapInsertUnion_pairwise m0 (stGet nss a).rule
        (ecsGet ecs (stGet nss a).ref1.toNat) hp
      obtain ⟨d1, d2, d3⟩ := ih _ hp1
      refine ⟨d1, fun c => ?_, fun c x => ?_⟩
      · rw [d2 c]
        rw [mapInsertUnion_lookup m0 _ _ hp c]
        simp only [List.mem_cons]
        by_cases hc : c = (stGet nss a).rule
        · rw [if_pos hc]
          simp only [Option.isSome_some, true_or]
          constructor
          · intro _
            exact Or.inr ⟨a, Or.inl rfl, hc.symm, ha⟩
          · intro _
            trivial
        · rw [if_neg hc]
          constructor
          · intro h
            rcases h with h | ⟨si, hsi, h2, h3⟩
            · exact Or.inl h
            · exact Or.inr ⟨si, Or.inr hsi, h2, h3⟩
          · intro h
            rcases h with h | ⟨si, hsi, h2, h3⟩
            · exact Or.inl h
            · rcases hsi with hsi | hsi
              · exact absurd h2 (by rw [hsi]; exact fun h' => hc h'.symm)
              · exact Or.inr ⟨si, hsi, h2, h3⟩
      · rw [d3 c x]
        rw [mapInsertUnion_lookup m0 _ _ hp c]
        simp only [List.mem_cons]
        by_cases hc : c = (stGet nss a).rule
        · rw [if_pos hc]
          simp only [Option.getD_some, Finset.mem_union]
          constructor
          · intro h
            rcases h with (h | h) | ⟨si, hsi, h2, h3, h4⟩
            · exact Or.inl (by rw [hc]; exact h)
            · exact Or.inr ⟨a, Or.inl rfl, hc.symm, ha, h⟩
            · exact Or.inr ⟨si, Or.inr hsi, h2, h3, h4⟩
          · intro h
            rcases h with h | ⟨si, hsi, h2, h3, h4⟩
            · exact Or.inl (Or.inl (by rw [← hc]; exact h))
            · rcases hsi with hsi | hsi
              · subst hsi
                exact Or.inl (Or.inr h4)
              · exact Or.inr ⟨si, hsi, h2, h3, h4⟩
        · rw [if_neg hc]
          constructor
          · intro h
            rcases h with h | ⟨si, hsi, h2, h3, h4⟩
            · exact Or.inl h
            · exact Or.inr ⟨si, Or.inr hsi, h2, h3, h4⟩
          · intro h
            rcases h with h | ⟨si, hsi, h2, h3, h4⟩
            · exact Or.inl h
            · rcases hsi with hsi | hsi
              · exact absurd h2 (by rw [hsi]; exact fun h' => hc h'.symm)
              · exact Or.inr ⟨si, hsi, h2, h3, h4⟩

theorem chClosures_pairwise (nss : List NFAState) (ecs : List (Finset Nat))
    (members : Finset Nat) :
    List.Pairwise (fun p q => p.1 < q.1) (chClosures nss ecs members) :=
  (foldl_ccStep_spec nss ecs (members.sort (· ≤ ·)) [] (by simp)).1

theorem chClosures_lookup_isSome (nss : List NFAState) (ecs : List (Finset Nat))
    (members : Finset Nat) (c : Int) :
    (mapLookupF (chClosures nss ecs members) c).isSome ↔
      ∃ si ∈ members, (stGet nss si).rule = c ∧ keepSym nss si := by
  unfold chClosures
  rw [(foldl_ccStep_spec nss ecs (members.sort (· ≤ ·)) [] (by simp)).2.1 c]
  simp [Finset.mem_sort, mapLookupF_nil]

theorem chClosures_lookup_getD (nss : List NFAState) (ecs : List (Finset Nat))
    (members : Finset Nat) (c : Int) :
    (mapLookupF (chClosures nss ecs members) c).getD ∅ = codeMove nss ecs members c := by
  apply Finset.ext
  intro x
  unfold chClosures
  rw [(foldl_ccStep_spec nss ecs (members.sort (· ≤ ·)) [] (by simp)).2.2 c x,
    codeMove_mem]
  simp [Finset.mem_sort, mapLookupF_nil]

theorem chClosures_lookup_some (nss : List NFAState) (ecs : List (Finset Nat))
    (members : Finset Nat) (c : Int) (S : Finset Nat)
    (h : mapLookupF (chClosures nss ecs members) c = some S) :
    S = codeMove nss ecs members c ∧
      ∃ si ∈ members, (stGet nss si).rule = c ∧ keepSym nss si := by
  constructor
  · rw [← chClosures_lookup_getD nss ecs members c, h]
    rfl
  · rw [← chClosures_lookup_isSome nss ecs members c, h]
    rfl

theorem chClosures_lookup_none (nss : List NFAState) (ecs : List (Finset Nat))
    (members : Finset Nat) (c : Int)
    (h : mapLookupF (chClosures nss ecs members) c = none) :
    ¬∃ si ∈ members, (stGet nss si).rule = c ∧ keepSym nss si := by
  rw [← chClosures_lookup_isSome nss ecs members c, h]
  simp

theorem chClosures_entry_iff (nss : List NFAState) (ecs : List (Finset Nat))
    (members : Finset Nat) (c : Int) (S : Finset Nat) :
    (c, S) ∈ chClosures nss ecs members ↔
      mapLookupF (chClosures nss ecs members) c = some S :=
  mapLookupF_pairwise_mem _ (chClosures_pairwise nss ecs members) c S

theorem epsStep_lt (nss : List NFAState) (hwf : WFNfa nss) {b c : Nat}
    (hb : b < nss.length) (h : epsStep nss b c) : c < nss.length := by
  obtain ⟨hrule, href⟩ := h
  have hwfb := wf_state_at nss hwf b hb
  rcases href with href | href
  · have := hwfb.1 (by rw [href]; simp [REF_UNDEFINED])
    rw [href] at this
    omega
  · have := hwfb.2.1 (by rw [href]; simp [REF_UNDEFINED])
    rw [href] at this
    omega

theorem epsReach_lt (nss : List NFAState) (hwf : WFNfa nss) {i j : Nat}
    (hi : i < nss.length) (h : EpsReach nss i j) : j < nss.length := by
  induction h with
  | refl => exact hi
  | tail hbc hstep ih => exact epsStep_lt nss hwf ih hstep

theorem nfaAccepts_empty_iff (nss : List NFAState) (i j : Nat) :
    NfaAccepts nss i [] j ↔ EpsReach nss i j := by
  constructor
  · intro h
    have haux : ∀ (w : List Int) (i j : Nat), NfaAccepts nss i w j → w = [] →
        EpsReach nss i j := by
      intro w i j h
      induction h with
      | nil i => intro _; exact epsReach_refl nss i
      | eps hstep _ ih => intro hw; exact epsReach_head nss hstep (ih hw)
      | chr hstep _ _ => intro hw; exact absurd hw (by simp)
    exact haux [] i j h rfl
  · intro h
    induction h using Relation.ReflTransGen.head_induction_on with
    | refl => exact NfaAccepts.nil j
    | head hstep _ ih => exact NfaAccepts.eps hstep ih

theorem nfaAccepts_eps_prepend (nss : List NFAState) {i p j : Nat} {w : List Int}
    (h : EpsReach nss i p) (h2 : NfaAccepts nss p w j) : NfaAccepts nss i w j := by
  induction h using Relation.ReflTransGen.head_induction_on with
  | refl => exact h2
  | head hstep _ ih => exact NfaAccepts.eps hstep ih

theorem nfaAccepts_cons_iff (nss : List NFAState) (i j : Nat) (c : Int) (w : List Int) :
    NfaAccepts nss i (c :: w) j ↔
      ∃ p q, EpsReach nss i p ∧ chStep nss c p q ∧ NfaAccepts nss q w j := by
  constructor
  · intro h
    have haux : ∀ (w' : List Int) (i j : Nat), NfaAccepts nss i w' j →
        ∀ (c : Int) (w : List Int), w' = c :: w →
        ∃ p q, EpsReach nss i p ∧ chStep nss c p q ∧ NfaAccepts nss q w j := by
      intro w' i j h
      induction h with
      | nil i => intro c w hw; exact absurd hw (by simp)
      | eps hstep _ ih =>
        intro c w hw
        obtain ⟨p, q, h1, h2, h3⟩ := ih c w hw
        exact ⟨p, q, epsReach_head nss hstep h1, h2, h3⟩
      | chr hstep hrest _ =>
        intro c w hw
        obtain ⟨hc, hw'⟩ := List.cons.inj hw
        subst hc
        subst hw'
        exact ⟨_, _, epsReach_refl nss _, hstep, hrest⟩
    exact haux (c :: w) i j h c w rfl
  · intro ⟨p, q, h1, h2, h3⟩
    exact nfaAccepts_eps_prepend nss h1 (NfaAccepts.chr h2 h3)

theorem codeMove_closed_bounded (nss : List NFAState) (hwf : WFNfa nss)
    (ecs : List (Finset Nat)) (hlen : ecs.length = nss.length)
    (hec : ∀ i, i < nss.length → (↑(ecsGet ecs i) : Set Nat) = {j | EpsReach nss i j})
    (S : Finset Nat) (hS : ∀ si ∈ S, si < nss.length) (c : Int) :
    ClosedSet nss (codeMove nss ecs S c) ∧
    (∀ x ∈ codeMove nss ecs S c, x < nss.length) := by
  have hkey : ∀ x ∈ codeMove nss ecs S c,
      ∃ si ∈ S, (stGet nss si).rule = c ∧ keepSym nss si ∧
        (stGet nss si).ref1.toNat < nss.length ∧
        EpsReach nss (stGet nss si).ref1.toNat x := by
    intro x hx
    obtain ⟨si, hsi, hrule, hkeep, hmem⟩ := (codeMove_mem nss ecs S c x).mp hx
    have hsin := hS si hsi
    have hwfs := wf_state_at nss hwf si hsin
    have hne : (stGet nss si).ref1 ≠ REF_UNDEFINED := by
      apply hwfs.2.2
      · unfold keepSym at hkeep
        intro h'
        exact hkeep (Or.inl h')
      · unfold keepSym at hkeep
        intro h'
        exact hkeep (Or.inr h')
    have hr1 : (stGet nss si).ref1.toNat < nss.length := by
      have := hwfs.1 hne
      omega
    have hreach : EpsReach nss (stGet nss si).ref1.toNat x := by
      have := hec _ hr1
      have hx' : x ∈ (↑(ecsGet ecs (stGet nss si).ref1.toNat) : Set Nat) :=
        Finset.mem_coe.mpr hmem
      rw [this] at hx'
      exact hx'
    exact ⟨si, hsi, hrule, hkeep, hr1, hreach⟩
  constructor
  · intro x hx y hy
    obtain ⟨si, hsi, hrule, hkeep, hr1, hreach⟩ := hkey x hx
    refine (codeMove_mem nss ecs S c y).mpr ⟨si, hsi, hrule, hkeep, ?_⟩
    have : y ∈ (↑(ecsGet ecs (stGet nss si).ref1.toNat) : Set Nat) := by
      rw [hec _ hr1]
      exact epsReach_trans nss hreach hy
    exact Finset.mem_coe.mp this
  · intro x hx
    obtain ⟨si, hsi, hrule, hkeep, hr1, hreach⟩ := hkey x hx
    exact epsReach_lt nss hwf hr1 hreach

theorem movesFold_nil (nss : List NFAState) (ecs : List (Finset Nat)) (S : Finset Nat) :
    movesFold nss ecs S [] = S := rfl

theorem movesFold_cons (nss : List NFAState) (ecs : List (Finset Nat)) (S : Finset Nat)
    (c : Int) (w : List Int) :
    movesFold nss ecs S (c :: w) = movesFold nss ecs (codeMove nss ecs S c) w := rfl

theorem codeMove_empty (nss : List NFAState) (ecs : List (Finset Nat)) (c : Int) :
    codeMove nss ecs ∅ c = ∅ := by
  apply Finset.ext
  intro x
  rw [codeMove_mem]
  simp

theorem movesFold_empty (nss : List NFAState) (ecs : List (Finset Nat)) (w : List Int) :
    movesFold nss ecs ∅ w = ∅ := by
  induction w with
  | nil => rfl
  | cons c t ih => rw [movesFold_cons, codeMove_empty, ih]

/-- The central semantic correspondence: a state is in the iterated move of
an epsilon-closed bounded set exactly when the NFA can consume the word from
some member and end there. -/
theorem movesFold_iff_accepts (nss : List NFAState) (hwf : WFNfa nss)
    (ecs : List (Finset Nat)) (hlen : ecs.length = nss.length)
    (hec : ∀ i, i < nss.length → (↑(ecsGet ecs i) : Set Nat) = {j | EpsReach nss i j}) :
    ∀ (w : List Int) (S : Finset Nat), ClosedSet nss S → (∀ si ∈ S, si < nss.length) →
      ∀ j, (j ∈ movesFold nss ecs S w ↔ ∃ i ∈ S, NfaAccepts nss i w j) := by
  intro w
  induction w with
  | nil =>
    intro S hclosed hbound j
    rw [movesFold_nil]
    constructor
    · intro hj
      exact ⟨j, hj, NfaAccepts.nil j⟩
    · intro ⟨i, hi, hacc⟩
      exact hclosed i hi j ((nfaAccepts_empty_iff nss i j).mp hacc)
  | cons c w' ih =>
    intro S hclosed hbound j
    rw [movesFold_cons]
    obtain ⟨hclosed', hbound'⟩ := codeMove_closed_bounded nss hwf ecs hlen hec S hbound c
    rw [ih (codeMove nss ecs S c) hclosed' hbound' j]
    constructor
    · intro ⟨t, ht, hacc⟩
      obtain ⟨si, hsi, hrule, hkeep, hmem⟩ := (codeMove_mem nss ecs S c t).mp ht
      have hsin := hbound si hsi
      have hwfs := wf_state_at nss hwf si hsin
      have hne : (stGet nss si).ref1 ≠ REF_UNDEFINED := by
        apply hwfs.2.2
        · unfold keepSym at hkeep
          intro h'
          exact hkeep (Or.inl h')
        · unfold keepSym at hkeep
          intro h'
          exact hkeep (Or.inr h')
      have hr1 : (stGet nss si).ref1.toNat < nss.length := by
        have := hwfs.1 hne
        omega
      have hchs : chStep nss c si (stGet nss si).ref1.toNat := by
        refine ⟨hrule, ?_, ?_, ?_⟩
        · unfold keepSym at hkeep
          intro h'
          exact hkeep (Or.inl (hrule.trans h'))
        · unfold keepSym at hkeep
          intro h'
          exact hkeep (Or.inr (hrule.trans h'))
        · have := (hwfs.1 hne).1
          omega
      have hreach : EpsReach nss (stGet nss si).ref1.toNat t := by
        have hx' : t ∈ (↑(ecsGet ecs (stGet nss si).ref1.toNat) : Set Nat) :=
          Finset.mem_coe.mpr hmem
        rw [hec _ hr1] at hx'
        exact hx'
      exact ⟨si, hsi, NfaAccepts.chr hchs (nfaAccepts_eps_prepend nss hreach hacc)⟩
    · intro ⟨i, hi, hacc⟩
      obtain ⟨p, q, hip, hpq, hacc'⟩ := (nfaAccepts_cons_iff nss i j c w').mp hacc
      have hp : p ∈ S := hclosed i hi p hip
      have hpn := hbound p hp
      obtain ⟨hrule, hce, hcu, href⟩ := hpq
      have hqn : q < nss.length := by
        have hne : (stGet nss p).ref1 ≠ REF_UNDEFINED := by
          rw [href]
          simp [REF_UNDEFINED]
        have := ((wf_state_at nss hwf p hpn).1 hne).2
        rw [href] at this
        omega
      refine ⟨q, ?_, hacc'⟩
      refine (codeMove_mem nss ecs S c q).mpr ⟨p, hp, hrule, ?_, ?_⟩
      · unfold keepSym
        intro h'
        rcases h' with h' | h'
        · exact hce (hrule.symm.trans h')
        · exact hcu (hrule.symm.trans h')
      · have hq1 : (stGet nss p).ref1.toNat = q := by
          rw [href]
          simp
        rw [hq1]
        have : q ∈ (↑(ecsGet ecs q) : Set Nat) := by
          rw [hec _ hqn]
          exact epsReach_refl nss q
        exact Finset.mem_coe.mp this

theorem findSetIdx_some_spec (states : List (Finset Nat)) (S : Finset Nat) :
    ∀ idx, findSetIdx states S = some idx →
      idx < states.length ∧ states.getD idx ∅ = S := by
  induction states with
  | nil => intro idx h; simp [findSetIdx] at h
  | cons T rest ih =>
    intro idx h
    by_cases hT : T = S
    · have : findSetIdx (T :: rest) S = some 0 := by simp [findSetIdx, hT]
      rw [this] at h
      have h0 : idx = 0 := (Option.some.inj h).symm
      subst h0
      exact ⟨by simp, hT⟩
    · have hstep : findSetIdx (T :: rest) S = (findSetIdx rest S).map (· + 1) := by
        simp [findSetIdx, hT]
      rw [hstep] at h
      obtain ⟨j, hj, hidx⟩ := Option.map_eq_some'.mp h
      obtain ⟨h1, h2⟩ := ih j hj
      subst hidx
      exact ⟨by simpa using h1, by simpa using h2⟩

theorem keys_nodup_of_pairwise (m : List (Int × Finset Nat))
    (hp : List.Pairwise (fun p q => p.1 < q.1) m) : (m.map Prod.fst).Nodup := by
  induction m with
  | nil => simp
  | cons kv rest ih =>
    obtain ⟨hhead, htail⟩ := List.pairwise_cons.mp hp
    simp only [List.map_cons, List.nodup_cons]
    refine ⟨?_, ih htail⟩
    intro hmem
    obtain ⟨p, hp', he⟩ := List.mem_map.mp hmem
    have := hhead p hp'
    omega

theorem pairs_nodup_of_rules (L : List DFARefRecord)
    (h : (L.map fun r => r.rule).Nodup) :
    (L.map fun r => (r.frm, r.rule)).Nodup := by
  induction L with
  | nil => simp
  | cons r t ih =>
    simp only [List.map_cons, List.nodup_cons] at h ⊢
    refine ⟨?_, ih h.2⟩
    intro hmem
    obtain ⟨r', hr', he⟩ := List.mem_map.mp hmem
    apply h.1
    refine List.mem_map.mpr ⟨r', hr', ?_⟩
    exact (congrArg Prod.snd he)

/-- What one pass of the inner `for_each` over the symbol map does: it only
appends states and records, each new record points at the (unique) state
holding its symbol's subset, and every map entry ends up with a record. -/
theorem stepFold_spec (dsi : Nat) :
    ∀ (l : List (Int × Finset Nat)) (states : List (Finset Nat))
      (recs : List DFARefRecord),
      ∃ ext newRecs,
        (l.foldl (subsetStepFold dsi) (states, recs)).1 = states ++ ext ∧
        (l.foldl (subsetStepFold dsi) (states, recs)).2 = recs ++ newRecs ∧
        ((newRecs.map fun r => r.rule) = l.map Prod.fst) ∧
        (∀ r ∈ newRecs, r.frm = dsi ∧ r.dst < (states ++ ext).length ∧
          ∃ S, (r.rule, S) ∈ l ∧ (states ++ ext).getD r.dst ∅ = S) ∧
        (∀ e ∈ l, ∃ t, t < (states ++ ext).length ∧ (states ++ ext).getD t ∅ = e.2 ∧
          DFARefRecord.mk dsi e.1 t ∈ recs ++ newRecs) := by
  intro l
  induction l with
  | nil =>
    intro states recs
    exact ⟨[], [], by simp, by simp, by simp, by simp, by simp⟩
  | cons e t ih =>
    intro states recs
    obtain ⟨c, S⟩ := e
    rw [List.foldl_cons]
    cases hf : findSetIdx states S with
    | some idx =>
      have hstep : subsetStepFold dsi (states, recs) (c, S)
          = (states, recs ++ [⟨dsi, c, idx⟩]) := by
        unfold subsetStepFold
        rw [hf]
      obtain ⟨hidx1, hidx2⟩ := findSetIdx_some_spec states S idx hf
      rw [hstep]
      obtain ⟨ext, newRecs, d1, d2, d3, d4, d5⟩ := ih states (recs ++ [⟨dsi, c, idx⟩])
      refine ⟨ext, ⟨dsi, c, idx⟩ :: newRecs, d1, ?_, ?_, ?_, ?_⟩
      · rw [d2, List.append_assoc]
        rfl
      · simp only [List.map_cons, d3]
      · intro r hr
        rcases List.mem_cons.mp hr with hr | hr
        · subst hr
          refine ⟨rfl, by simp; omega, S, List.mem_cons_self _ _, ?_⟩
          rw [getD_append_left _ _ _ _ hidx1]
          exact hidx2
        · obtain ⟨e1, e2, S', e3, e4⟩ := d4 r hr
          exact ⟨e1, e2, S', List.mem_cons_of_mem _ e3, e4⟩
      · intro e he
        rcases List.mem_cons.mp he with he | he
        · rw [he]
          refine ⟨idx, by simp; omega, ?_, ?_⟩
          · rw [getD_append_left _ _ _ _ hidx1]
            exact hidx2
          · exact List.mem_append.mpr (Or.inr (List.mem_cons_self _ _))
        · obtain ⟨tt, e1, e2, e3⟩ := d5 e he
          refine ⟨tt, e1, e2, ?_⟩
          rw [List.append_assoc] at e3
          exact e3
    | none =>
      have hstep : subsetStepFold dsi (states, recs) (c, S)
          = (states ++ [S], recs ++ [⟨dsi, c, states.length⟩]) := by
        unfold subsetStepFold
        rw [hf]
      rw [hstep]
      obtain ⟨ext, newRecs, d1, d2, d3, d4, d5⟩ := ih (states ++ [S])
        (recs ++ [⟨dsi, c, states.length⟩])
      have hgetS : ∀ ext2 : List (Finset Nat),
          (states ++ [S] ++ ext2).getD states.length ∅ = S := by
        intro ext2
        rw [List.append_assoc, getD_append_right _ _ _ _ (le_refl _)]
        simp
      refine ⟨[S] ++ ext, ⟨dsi, c, states.length⟩ :: newRecs, ?_, ?_, ?_, ?_, ?_⟩
      · rw [d1, List.append_assoc]
      · rw [d2, List.append_assoc]
        rfl
      · simp only [List.map_cons, d3]
      · intro r hr
        rcases List.mem_cons.mp hr with hr | hr
        · subst hr
          refine ⟨rfl, ?_, S, List.mem_cons_self _ _, ?_⟩
          · rw [← List.append_assoc]
            simp
          · rw [← List.append_assoc]
            exact hgetS ext
        · obtain ⟨e1, e2, S', e3, e4⟩ := d4 r hr
          refine ⟨e1, ?_, S', List.mem_cons_of_mem _ e3, ?_⟩
          · rw [← List.append_assoc]
            exact e2
          · rw [← List.append_assoc]
            exact e4
      · intro e he
        rcases List.mem_cons.mp he with he | he
        · rw [he]
          refine ⟨states.length, ?_, ?_, ?_⟩
          · simp
          · rw [← List.append_assoc]
            exact hgetS ext
          · exact List.mem_append.mpr (Or.inr (List.mem_cons_self _ _))
        · obtain ⟨tt, e1, e2, e3⟩ := d5 e he
          refine ⟨tt, ?_, ?_, ?_⟩
          · rw [← List.append_assoc]
            exact e1
          · rw [← List.append_assoc]
            exact e2
          · rw [List.append_assoc] at e3
            exact e3

/-- Invariant theorem for the discovery loop: on completion, states were
only appended, every record points at the state holding its symbol's subset,
records are unique per (source, symbol), and every processed state has one
record per symbol of its partition map. -/
theorem subsetLoop_spec (nss : List NFAState) (ecs : List (Finset Nat)) :
    ∀ (fuel dsi : Nat) (states : List (Finset Nat)) (recs : List DFARefRecord)
      (states' : List (Finset Nat)) (recs' : List DFARefRecord),
      subsetLoop nss ecs fuel dsi states recs = some (states', recs') →
      (∀ r ∈ recs, r.frm < dsi ∧ r.frm < states.length ∧ r.dst < states.length ∧
        mapLookupF (chClosures nss ecs (states.getD r.frm ∅)) r.rule
          = some (states.getD r.dst ∅)) →
      ((recs.map fun r => (r.frm, r.rule)).Nodup) →
      (∀ k, k < dsi → k < states.length → ∀ c S,
        mapLookupF (chClosures nss ecs (states.getD k ∅)) c = some S →
        ∃ t, t < states.length ∧ states.getD t ∅ = S ∧
          DFARefRecord.mk k c t ∈ recs) →
      (∃ ext, states' = states ++ ext) ∧
      (∀ r ∈ recs', r.frm < states'.length ∧ r.dst < states'.length ∧
        mapLookupF (chClosures nss ecs (states'.getD r.frm ∅)) r.rule
          = some (states'.getD r.dst ∅)) ∧
      ((recs'.map fun r => (r.frm, r.rule)).Nodup) ∧
      (∀ k, k < states'.length → ∀ c S,
        mapLookupF (chClosures nss ecs (states'.getD k ∅)) c = some S →
        ∃ t, t < states'.length ∧ states'.getD t ∅ = S ∧
          DFARefRecord.mk k c t ∈ recs') := by
  intro fuel
  induction fuel with
  | zero =>
    intro dsi states recs states' recs' h
    simp [subsetLoop] at h
  | succ f ih =>
    intro dsi states recs states' recs' h hD hE hF
    rw [subsetLoop] at h
    split at h
    case isFalse hdsi =>
      simp only [Option.some.injEq, Prod.mk.injEq] at h
      obtain ⟨h1, h2⟩ := h
      subst h1
      subst h2
      refine ⟨⟨[], by simp⟩, fun r hr => ⟨(hD r hr).2.1, (hD r hr).2.2.1, (hD r hr).2.2.2⟩,
        hE, fun k hk => ?_⟩
      exact hF k (by omega) hk
    case isTrue hdsi =>
      have hmembers : states.get ⟨dsi, hdsi⟩ = states.getD dsi ∅ := by
        rw [List.getD_eq_getElem states ∅ hdsi]
        rfl
      obtain ⟨ext, newRecs, d1, d2, d3, d4, d5⟩ :=
        stepFold_spec dsi (chClosures nss ecs (states.get ⟨dsi, hdsi⟩)) states recs
      simp only at h
      rw [d1, d2] at h
      -- establish the invariant for the next iteration
      have hgetstable : ∀ i, i < states.length →
          (states ++ ext).getD i ∅ = states.getD i ∅ := fun i hi =>
        getD_append_left _ _ _ _ hi
      have hD2 : ∀ r ∈ recs ++ newRecs, r.frm < dsi + 1 ∧ r.frm < (states ++ ext).length ∧
          r.dst < (states ++ ext).length ∧
          mapLookupF (chClosures nss ecs ((states ++ ext).getD r.frm ∅)) r.rule
            = some ((states ++ ext).getD r.dst ∅) := by
        intro r hr
        rcases List.mem_append.mp hr with hr | hr
        · obtain ⟨e1, e2, e3, e4⟩ := hD r hr
          refine ⟨by omega, by simp; omega, by simp; omega, ?_⟩
          rw [hgetstable r.frm e2, hgetstable r.dst e3]
          exact e4
        · obtain ⟨e1, e2, S, e3, e4⟩ := d4 r hr
          refine ⟨by omega, by simp; omega, e2, ?_⟩
          rw [e1, hgetstable dsi hdsi, e4, ← hmembers]
          exact (chClosures_entry_iff nss ecs _ r.rule S).mp e3
      have hE2 : ((recs ++ newRecs).map fun r => (r.frm, r.rule)).Nodup := by
        rw [List.map_append]
        rw [List.nodup_append]
        refine ⟨hE, ?_, ?_⟩
        · apply pairs_nodup_of_rules
          rw [d3]
          exact keys_nodup_of_pairwise _ (chClosures_pairwise nss ecs _)
        · intro p hp hp'
          obtain ⟨r, hr, he⟩ := List.mem_map.mp hp
          obtain ⟨r', hr', he'⟩ := List.mem_map.mp hp'
          have h1 := (hD r hr).1
          have h2 := (d4 r' hr').1
          have : r.frm = r'.frm := by
            have h3 := he.trans he'.symm
            exact congrArg Prod.fst h3
          omega
      have hF2 : ∀ k, k < dsi + 1 → k < (states ++ ext).length → ∀ c S,
          mapLookupF (chClosures nss ecs ((states ++ ext).getD k ∅)) c = some S →
          ∃ t, t < (states ++ ext).length ∧ (states ++ ext).getD t ∅ = S ∧
            DFARefRecord.mk k c t ∈ recs ++ newRecs := by
        intro k hk hk2 c S hS
        by_cases hkd : k < dsi
        · rw [hgetstable k (by omega)] at hS
          obtain ⟨t, e1, e2, e3⟩ := hF k hkd (by omega) c S hS
          exact ⟨t, by simp; omega, by rw [hgetstable t e1]; exact e2,
            List.mem_append.mpr (Or.inl e3)⟩
        · have hkd : k = dsi := by omega
          subst hkd
          rw [hgetstable k hdsi] at hS
          have hentry : (c, S) ∈ chClosures nss ecs (states.get ⟨k, hdsi⟩) := by
            rw [chClosures_entry_iff, hmembers]
            exact hS
          obtain ⟨t, e1, e2, e3⟩ := d5 (c, S) hentry
          exact ⟨t, e1, e2, e3⟩
      obtain ⟨⟨ext2, g1⟩, g2, g3, g4⟩ := ih (dsi + 1) (states ++ ext) (recs ++ newRecs)
        states' recs' h hD2 hE2 hF2
      exact ⟨⟨ext ++ ext2, by rw [g1, List.append_assoc]⟩, g2, g3, g4⟩

theorem mapLookupN_nil (c : Int) : mapLookupN [] c = none := rfl

theorem mapLookupN_cons (k : Int) (v : Nat) (rest : List (Int × Nat)) (c : Int) :
    mapLookupN ((k, v) :: rest) c = if c = k then some v else mapLookupN rest c := rfl

theorem mapEmplace_nil (c : Int) (t : Nat) : mapEmplace [] c t = [(c, t)] := rfl

theorem mapEmplace_cons_lt {k c : Int} (v : Nat) (rest : List (Int × Nat)) (t : Nat)
    (h : c < k) : mapEmplace ((k, v) :: rest) c t = (c, t) :: (k, v) :: rest := by
  unfold mapEmplace
  rw [if_pos h]

theorem mapEmplace_cons_eq {k c : Int} (v : Nat) (rest : List (Int × Nat)) (t : Nat)
    (h : c = k) : mapEmplace ((k, v) :: rest) c t = (k, v) :: rest := by
  unfold mapEmplace
  rw [if_neg (by omega), if_pos h]

theorem mapEmplace_cons_gt {k c : Int} (v : Nat) (rest : List (Int × Nat)) (t : Nat)
    (h1 : ¬c < k) (h2 : ¬c = k) :
    mapEmplace ((k, v) :: rest) c t = (k, v) :: mapEmplace rest c t := by
  conv_lhs => unfold mapEmplace
  rw [if_neg h1, if_neg h2]

theorem mapLookupN_none_of_lt (m : List (Int × Nat)) (c : Int)
    (hall : ∀ p ∈ m, c < p.1) : mapLookupN m c = none := by
  induction m with
  | nil => rfl
  | cons kv rest ih =>
    obtain ⟨k, v⟩ := kv
    rw [mapLookupN_cons]
    rw [if_neg (by have := hall (k, v) (List.mem_cons_self _ _); simp at this; omega)]
    exact ih fun p hp => hall p (List.mem_cons_of_mem _ hp)

theorem mapEmplace_mem_key (m : List (Int × Nat)) (c : Int) (t : Nat) :
    ∀ p ∈ mapEmplace m c t, p.1 = c ∨ p ∈ m := by
  induction m with
  | nil =>
    intro p hp
    rw [mapEmplace_nil] at hp
    simp only [List.mem_cons, List.not_mem_nil, or_false] at hp
    left
    rw [hp]
  | cons kv rest ih =>
    obtain ⟨k, v⟩ := kv
    intro p hp
    by_cases h1 : c < k
    · rw [mapEmplace_cons_lt v rest t h1] at hp
      rcases List.mem_cons.mp hp with h | h
      · left
        rw [h]
      · right
        exact h
    · by_cases h2 : c = k
      · rw [mapEmplace_cons_eq v rest t h2] at hp
        right
        exact hp
      · rw [mapEmplace_cons_gt v rest t h1 h2] at hp
        rcases List.mem_cons.mp hp with h | h
        · right
          rw [h]
          exact List.mem_cons_self _ _
        · rcases ih p h with h' | h'
          · left
            exact h'
          · right
            exact List.mem_cons_of_mem _ h'

theorem mapEmplace_pairwise (m : List (Int × Nat)) (c : Int) (t : Nat)
    (hp : List.Pairwise (fun p q => p.1 < q.1) m) :
    List.Pairwise (fun p q => p.1 < q.1) (mapEmplace m c t) := by
  induction m with
  | nil =>
    rw [mapEmplace_nil]
    simp
  | cons kv rest ih =>
    obtain ⟨k, v⟩ := kv
    obtain ⟨hhead, htail⟩ := List.pairwise_cons.mp hp
    by_cases h1 : c < k
    · rw [mapEmplace_cons_lt v rest t h1]
      refine List.pairwise_cons.mpr ⟨?_, hp⟩
      intro p hp'
      rcases List.mem_cons.mp hp' with h | h
      · rw [h]
        exact h1
      · exact lt_trans h1 (hhead p h)
    · by_cases h2 : c = k
      · rw [mapEmplace_cons_eq v rest t h2]
        exact hp
      · rw [mapEmplace_cons_gt v rest t h1 h2]
        refine List.pairwise_cons.mpr ⟨?_, ih htail⟩
        intro p hp'
        rcases mapEmplace_mem_key rest c t p hp' with h | h
        · rw [h]
          omega
        · exact hhead p h

theorem mapEmplace_lookup (m : List (Int × Nat)) (c : Int) (t : Nat)
    (hp : List.Pairwise (fun p q => p.1 < q.1) m) (c' : Int) :
    mapLookupN (mapEmplace m c t) c'
      = if c' = c then some ((mapLookupN m c).getD t) else mapLookupN m c' := by
  induction m with
  | nil =>
    by_cases h : c' = c
    · subst h
      rw [mapEmplace_nil, mapLookupN_cons, if_pos rfl, if_pos rfl, mapLookupN_nil]
      rfl
    · rw [mapEmplace_nil, mapLookupN_cons, if_neg h, if_neg h]
  | cons kv rest ih =>
    obtain ⟨k, v⟩ := kv
    obtain ⟨hhead, htail⟩ := List.pairwise_cons.mp hp
    by_cases h1 : c < k
    · rw [mapEmplace_cons_lt v rest t h1, mapLookupN_cons]
      have hnone : mapLookupN ((k, v) :: rest) c = none := by
        refine mapLookupN_none_of_lt _ _ ?_
        intro p hp'
        rcases List.mem_cons.mp hp' with h | h
        · rw [h]
          exact h1
        · exact lt_trans h1 (hhead p h)
      by_cases h : c' = c
      · rw [if_pos h, if_pos h, hnone]
        rfl
      · rw [if_neg h, if_neg h]
    · by_cases h2 : c = k
      · subst h2
        rw [mapEmplace_cons_eq v rest t rfl]
        by_cases h : c' = c
        · rw [if_pos h, mapLookupN_cons, if_pos h, mapLookupN_cons, if_pos rfl]
          rfl
        · rw [if_neg h]
      · rw [mapEmplace_cons_gt v rest t h1 h2, mapLookupN_cons]
        by_cases h : c' = c
        · rw [if_pos h]
          rw [if_neg (show ¬c' = k by rw [h]; exact h2)]
          rw [ih htail, if_pos h, mapLookupN_cons, if_neg h2]
        · rw [if_neg h]
          by_cases hk : c' = k
          · rw [if_pos hk, mapLookupN_cons, if_pos hk]
          · rw [if_neg hk, ih htail, if_neg h, mapLookupN_cons, if_neg hk]

theorem applyRec_getD_other (d : List DFAState) (r : DFARefRecord) (i : Nat)
    (h : i ≠ r.frm) : (applyRec d r).getD i {} = d.getD i {} := by
  unfold applyRec
  exact getD_set_other _ _ _ _ _ (fun h' => h h'.symm)

theorem applyRec_getD_self (d : List DFAState) (r : DFARefRecord)
    (h : r.frm < d.length) :
    (applyRec d r).getD r.frm {} =
      { d.getD r.frm {} with refs := mapEmplace (d.getD r.frm {}).refs r.rule r.dst } := by
  unfold applyRec
  exact getD_set_self _ _ _ _ h

/-- Lookup in the transition maps after recording all discovered
transitions: a transition is present exactly when a record for it exists. -/
theorem foldl_applyRec_lookup (recs : List DFARefRecord) :
    ∀ (d : List DFAState),
      (∀ i, List.Pairwise (fun p q => p.1 < q.1) ((d.getD i {}).refs)) →
      (∀ r ∈ recs, r.frm < d.length ∧
        mapLookupN ((d.getD r.frm {}).refs) r.rule = none) →
      ((recs.map fun r => (r.frm, r.rule)).Nodup) →
      ∀ i c t, (mapLookupN (((recs.foldl applyRec d).getD i {}).refs) c = some t ↔
        (mapLookupN ((d.getD i {}).refs) c = some t ∨ DFARefRecord.mk i c t ∈ recs)) := by
  induction recs with
  | nil =>
    intro d _ _ _ i c t
    simp
  | cons r rs ih =>
    intro d hpw hok hnd i c t
    have hrlen : r.frm < d.length := (hok r (List.mem_cons_self _ _)).1
    have hrnone : mapLookupN ((d.getD r.frm {}).refs) r.rule = none :=
      (hok r (List.mem_cons_self _ _)).2
    have hget1 : ∀ j, ((applyRec d r).getD j {}).refs
        = if j = r.frm then mapEmplace ((d.getD r.frm {}).refs) r.rule r.dst
          else ((d.getD j {}).refs) := by
      intro j
      by_cases hj : j = r.frm
      · subst hj
        rw [if_pos rfl, applyRec_getD_self d r hrlen]
      · rw [if_neg hj, applyRec_getD_other d r j hj]
    have hpw1 : ∀ j, List.Pairwise (fun p q => p.1 < q.1) (((applyRec d r).getD j {}).refs) := by
      intro j
      rw [hget1 j]
      by_cases hj : j = r.frm
      · rw [if_pos hj]
        exact mapEmplace_pairwise _ _ _ (hpw r.frm)
      · rw [if_neg hj]
        exact hpw j
    have hnd' : ((r.frm, r.rule) :: rs.map fun r' => (r'.frm, r'.rule)).Nodup := by
      have h0 := hnd
      rw [List.map_cons] at h0
      exact h0
    have hnd1 : ((rs.map fun r' => (r'.frm, r'.rule)).Nodup) := (List.nodup_cons.mp hnd').2
    have hhead : (r.frm, r.rule) ∉ rs.map fun r' => (r'.frm, r'.rule) :=
      (List.nodup_cons.mp hnd').1
    have hok1 : ∀ r' ∈ rs, r'.frm < (applyRec d r).length ∧
        mapLookupN (((applyRec d r).getD r'.frm {}).refs) r'.rule = none := by
      intro r' hr'
      refine ⟨by rw [applyRec_length]; exact (hok r' (List.mem_cons_of_mem _ hr')).1, ?_⟩
      rw [hget1 r'.frm]
      by_cases hj : r'.frm = r.frm
      · rw [if_pos hj]
        have hne : ¬r'.rule = r.rule := by
          intro he
          apply hhead
          refine List.mem_map.mpr ⟨r', hr', ?_⟩
          rw [hj, he]
        rw [mapEmplace_lookup _ _ _ (hpw r.frm) r'.rule, if_neg hne]
        have h0 := (hok r' (List.mem_cons_of_mem _ hr')).2
        rw [hj] at h0
        exact h0
      · rw [if_neg hj]
        exact (hok r' (List.mem_cons_of_mem _ hr')).2
    rw [List.foldl_cons, ih (applyRec d r) hpw1 hok1 hnd1 i c t]
    have hbase : mapLookupN (((applyRec d r).getD i {}).refs) c = some t ↔
        (mapLookupN ((d.getD i {}).refs) c = some t ∨ DFARefRecord.mk i c t = r) := by
      rw [hget1 i]
      by_cases hj : i = r.frm
      · rw [if_pos hj]
        rw [mapEmplace_lookup _ _ _ (hpw r.frm) c]
        by_cases hc : c = r.rule
        · rw [if_pos hc, hrnone, Option.getD_none]
          constructor
          · intro h
            right
            have ht : t = r.dst := (Option.some.inj h).symm
            subst ht
            subst hc
            subst hj
            rfl
          · intro h
            rcases h with h | h
            · rw [hj, hc, hrnone] at h
              exact absurd h (by simp)
            · have ht := congrArg DFARefRecord.dst h
              simp at ht
              exact congrArg some ht.symm
        · rw [if_neg hc, hj]
          constructor
          · intro h
            exact Or.inl h
          · intro h
            rcases h with h | h
            · exact h
            · exact absurd (congrArg DFARefRecord.rule h) (by simpa using hc)
      · rw [if_neg hj]
        constructor
        · intro h
          exact Or.inl h
        · intro h
          rcases h with h | h
          · exact h
          · exact absurd (congrArg DFARefRecord.frm h) (by simpa using hj)
    rw [hbase]
    simp only [List.mem_cons]
    tauto

/-! Length preservation through the closure computation. -/

theorem ecLoop_lengths (nss : List NFAState) :
    ∀ (stack : List Nat) (flag : List Bool) (ecs : List (Finset Nat))
      (flag' : List Bool) (ecs' : List (Finset Nat)),
      ecLoop nss stack flag ecs = Except.ok (flag', ecs') →
      flag'.length = flag.length ∧ ecs'.length = ecs.length := by
  intro stack flag ecs
  induction stack, flag, ecs using ecLoop.induct nss with
  | case1 flag ecs =>
    intro flag' ecs' h
    rw [ecLoop] at h
    simp only [Except.ok.injEq, Prod.mk.injEq] at h
    exact ⟨by rw [← h.1], by rw [← h.2]⟩
  | case2 flag ecs argi rest hg =>
    intro flag' ecs' h
    rw [ecLoop_guard_error nss argi rest flag ecs hg] at h
    simp at h
  | case3 flag ecs argi rest hg hrule hp1 ih =>
    intro flag' ecs' h
    rw [ecLoop, dif_neg hg, dif_pos hrule, dif_pos hp1] at h
    exact ih flag' ecs' h
  | case4 flag ecs argi rest hg hrule hp1 hp2 ih =>
    intro flag' ecs' h
    rw [ecLoop, dif_neg hg, dif_pos hrule, dif_neg hp1, dif_pos hp2] at h
    obtain ⟨c1, c2⟩ := ih flag' ecs' h
    rw [ecsAfter1_length] at c2
    exact ⟨c1, c2⟩
  | case5 flag ecs argi rest hg hrule hp1 hp2 ih =>
    intro flag' ecs' h
    rw [ecLoop, dif_neg hg, dif_pos hrule, dif_neg hp1, dif_neg hp2] at h
    obtain ⟨c1, c2⟩ := ih flag' ecs' h
    rw [List.length_set] at c1
    rw [ecsInsertSelf_length, ecsAfter2_length, ecsAfter1_length] at c2
    exact ⟨c1, c2⟩
  | case6 flag ecs argi rest hg hrule ih =>
    intro flag' ecs' h
    rw [ecLoop, dif_neg hg, dif_neg hrule] at h
    obtain ⟨c1, c2⟩ := ih flag' ecs' h
    rw [List.length_set] at c1
    rw [ecsInsertSelf_length] at c2
    exact ⟨c1, c2⟩

theorem ecForLoop_lengths (nss : List NFAState) :
    ∀ (is : List Nat) (flag : List Bool) (ecs : List (Finset Nat))
      (flag' : List Bool) (ecs' : List (Finset Nat)),
      ecForLoop nss is flag ecs = Except.ok (flag', ecs') →
      flag'.length = flag.length ∧ ecs'.length = ecs.length := by
  intro is
  induction is with
  | nil =>
    intro flag ecs flag' ecs' h
    unfold ecForLoop at h
    simp only [Except.ok.injEq, Prod.mk.injEq] at h
    exact ⟨by rw [← h.1], by rw [← h.2]⟩
  | cons j t ih =>
    intro flag ecs flag' ecs' h
    unfold ecForLoop at h
    cases hE : ecLoop nss [j] flag ecs with
    | error e =>
      rw [hE] at h
      simp at h
    | ok pair =>
      rw [hE] at h
      obtain ⟨c1, c2⟩ := ecLoop_lengths nss [j] flag ecs pair.1 pair.2 (by rw [hE])
      obtain ⟨d1, d2⟩ := ih pair.1 pair.2 flag' ecs' h
      exact ⟨d1.trans c1, d2.trans c2⟩

theorem calculate_closures_length (nss : List NFAState) (ecs ecs' : List (Finset Nat))
    (h : calculate_epsilon_closures nss ecs = Except.ok ecs') :
    ecs'.length = ecs.length := by
  unfold calculate_epsilon_closures at h
  cases hE : ecForLoop nss (List.range nss.length) (List.replicate nss.length false) ecs with
  | error e =>
    rw [hE] at h
    simp at h
  | ok pair =>
    rw [hE] at h
    simp only [Except.ok.injEq] at h
    subst h
    exact (ecForLoop_lengths nss (List.range nss.length) (List.replicate nss.length false)
      ecs pair.1 pair.2 (by rw [hE])).2

/-! The assembled DFA: lookup, run and acceptance, as functions of the
discovered subsets and transition records. -/

/-- Transition lookup in the assembled DFA: a transition is present exactly
when it was recorded during discovery (the assembly base has empty maps). -/
theorem assembled_lookup (states : List (Finset Nat)) (recs : List DFARefRecord)
    (endRef : Int)
    (hfrm : ∀ r ∈ recs, r.frm < states.length)
    (hnd : (recs.map fun r => (r.frm, r.rule)).Nodup)
    (i : Nat) (c : Int) (t : Nat) :
    mapLookupN (((assembleDFA states recs endRef).stateAt i).refs) c = some t ↔
      DFARefRecord.mk i c t ∈ recs := by
  have hrefs : ∀ j, (((states.map fun S =>
      DFAState.mk (decide (0 ≤ endRef) && decide (endRef.toNat ∈ S)) []).getD j {}).refs)
      = [] := by
    intro j
    by_cases hj : j < states.length
    · rw [getD_map_lt _ _ _ ∅ _ hj]
    · rw [getD_eq_of_ge _ _ _ (by rw [List.length_map]; omega)]
  have hstat : ((assembleDFA states recs endRef).stateAt i).refs
      = ((recs.foldl applyRec (states.map fun S =>
          DFAState.mk (decide (0 ≤ endRef) && decide (endRef.toNat ∈ S)) [])).getD i {}).refs :=
    rfl
  rw [hstat]
  rw [foldl_applyRec_lookup recs _ (fun j => by rw [hrefs j]; exact List.Pairwise.nil)
    (fun r hr => ⟨by rw [List.length_map]; exact hfrm r hr, by rw [hrefs r.frm]; exact mapLookupN_nil r.rule⟩) hnd i c t]
  rw [hrefs i]
  simp [mapLookupN]

/-- Run correspondence for the assembled DFA: from a discovered state, the
run on a word lands on the index holding the iterated subset move, and dies
exactly when that move is empty. -/
theorem assembled_run (nss : List NFAState) (ecs : List (Finset Nat))
    (states : List (Finset Nat)) (recs : List DFARefRecord) (endRef : Int)
    (hsound : ∀ r ∈ recs, r.frm < states.length ∧ r.dst < states.length ∧
      mapLookupF (chClosures nss ecs (states.getD r.frm ∅)) r.rule
        = some (states.getD r.dst ∅))
    (hnd : (recs.map fun r => (r.frm, r.rule)).Nodup)
    (hcompl : ∀ k, k < states.length → ∀ c S,
      mapLookupF (chClosures nss ecs (states.getD k ∅)) c = some S →
      ∃ t, t < states.length ∧ states.getD t ∅ = S ∧ DFARefRecord.mk k c t ∈ recs) :
    ∀ (w : List Int) (k : Nat), k < states.length →
      (∀ j, (assembleDFA states recs endRef).runFrom k w = some j →
        j < states.length ∧ states.getD j ∅ = movesFold nss ecs (states.getD k ∅) w) ∧
      ((assembleDFA states recs endRef).runFrom k w = none →
        movesFold nss ecs (states.getD k ∅) w = ∅) := by
  intro w
  induction w with
  | nil =>
    intro k hk
    constructor
    · intro j hj
      simp only [DFA.runFrom, Option.some.injEq] at hj
      rw [← hj]
      exact ⟨hk, rfl⟩
    · intro hj
      simp [DFA.runFrom] at hj
  | cons c w ih =>
    intro k hk
    cases hL : mapLookupN (((assembleDFA states recs endRef).stateAt k).refs) c with
    | none =>
      have hnoTrans : ∀ t, DFARefRecord.mk k c t ∉ recs := by
        intro t ht
        have hb := (assembled_lookup states recs endRef
          (fun r hr => (hsound r hr).1) hnd k c t).mpr ht
        rw [hL] at hb
        exact absurd hb (by simp)
      have hnone : mapLookupF (chClosures nss ecs (states.getD k ∅)) c = none := by
        cases hF : mapLookupF (chClosures nss ecs (states.getD k ∅)) c with
        | none => rfl
        | some S =>
          obtain ⟨t, _, _, ht3⟩ := hcompl k hk c S hF
          exact absurd ht3 (hnoTrans t)
      have hmove : codeMove nss ecs (states.getD k ∅) c = ∅ := by
        have hgd := chClosures_lookup_getD nss ecs (states.getD k ∅) c
        rw [hnone] at hgd
        exact hgd.symm
      constructor
      · intro j hj
        simp [DFA.runFrom, hL] at hj
      · intro _
        rw [movesFold_cons, hmove, movesFold_empty]
    | some t =>
      have ht : DFARefRecord.mk k c t ∈ recs :=
        (assembled_lookup states recs endRef (fun r hr => (hsound r hr).1) hnd k c t).mp hL
      obtain ⟨e1, e2, e3⟩ := hsound _ ht
      have hS : states.getD t ∅ = codeMove nss ecs (states.getD k ∅) c :=
        (chClosures_lookup_some nss ecs _ c _ e3).1
      obtain ⟨ih1, ih2⟩ := ih t e2
      constructor
      · intro j hj
        simp only [DFA.runFrom, hL] at hj
        obtain ⟨g1, g2⟩ := ih1 j hj
        refine ⟨g1, ?_⟩
        rw [movesFold_cons, ← hS]
        exact g2
      · intro hj
        simp only [DFA.runFrom, hL] at hj
        rw [movesFold_cons, ← hS]
        exact ih2 hj

/-- Acceptance of the assembled DFA, in terms of the iterated subset move
from the initial subset: the run survives and ends accepting exactly when
the moved subset contains the designated end index. -/
theorem assembled_accepts (nss : List NFAState) (ecs : List (Finset Nat))
    (states : List (Finset Nat)) (recs : List DFARefRecord) (endRef : Int)
    (hsound : ∀ r ∈ recs, r.frm < states.length ∧ r.dst < states.length ∧
      mapLookupF (chClosures nss ecs (states.getD r.frm ∅)) r.rule
        = some (states.getD r.dst ∅))
    (hnd : (recs.map fun r => (r.frm, r.rule)).Nodup)
    (hcompl : ∀ k, k < states.length → ∀ c S,
      mapLookupF (chClosures nss ecs (states.getD k ∅)) c = some S →
      ∃ t, t < states.length ∧ states.getD t ∅ = S ∧ DFARefRecord.mk k c t ∈ recs)
    (h0 : 0 < states.length) (w : List Int) :
    (assembleDFA states recs endRef).acceptsB w = true ↔
      (0 ≤ endRef ∧ endRef.toNat ∈ movesFold nss ecs (states.getD 0 ∅) w) := by
  obtain ⟨run1, run2⟩ := assembled_run nss ecs states recs endRef hsound hnd hcompl w 0 h0
  cases hR : (assembleDFA states recs endRef).runFrom 0 w with
  | none =>
    have hmv := run2 hR
    simp only [DFA.acceptsB, hR]
    rw [hmv]
    simp
  | some j =>
    obtain ⟨hj, hSj⟩ := run1 j hR
    simp only [DFA.acceptsB, hR]
    have h1 : ((assembleDFA states recs endRef).stateAt j).is_end
        = ((states.map fun S =>
            DFAState.mk (decide (0 ≤ endRef) && decide (endRef.toNat ∈ S)) []).getD j
            {}).is_end := by
      simpa [assembleDFA, DFA.stateAt] using
        foldl_applyRec_is_end recs
          (states.map fun S =>
            DFAState.mk (decide (0 ≤ endRef) && decide (endRef.toNat ∈ S)) []) j
    rw [h1, getD_map_lt _ _ _ ∅ _ hj, hSj]
    simp

/-! Well-formedness of algebra-built automata. -/

theorem wfState_mono (st : NFAState) {n n' : Nat} (h : n ≤ n') (hw : WFState n st) :
    WFState n' st := by
  obtain ⟨h1, h2, h3⟩ := hw
  refine ⟨fun hr => ?_, fun hr => ?_, h3⟩
  · have := h1 hr
    omega
  · have := h2 hr
    omega

theorem wf_newState (n : Nat) : WFState n newState :=
  ⟨fun h => absurd rfl h, fun h => absurd rfl h, fun _ h => absurd rfl h⟩

theorem wf_vget (v : List NFAState) (hwf : ∀ st ∈ v, WFState v.length st) (i : Int) :
    WFState v.length (vget v i) := by
  by_cases h : i.toNat < v.length
  · rw [vget, List.getD_eq_getElem v {} h]
    exact hwf _ (List.getElem_mem h)
  · rw [vget, getD_eq_of_ge _ _ _ (by omega)]
    exact wf_newState _

theorem wfNfa_vset (v : List NFAState) (hwf : ∀ st ∈ v, WFState v.length st)
    (i : Int) (st : NFAState) (hst : WFState v.length st) :
    ∀ x ∈ vset v i st, WFState (vset v i st).length x := by
  intro x hx
  have hlen : (vset v i st).length = v.length := by simp [vset]
  rw [hlen]
  rw [vset] at hx
  rcases List.mem_or_eq_of_mem_set hx with h | h
  · exact hwf x h
  · rw [h]
    exact hst

theorem wfNfa_append_new (v : List NFAState) (hwf : ∀ st ∈ v, WFState v.length st)
    (ts : List NFAState) (hts : ∀ st ∈ ts, st = newState) :
    ∀ x ∈ v ++ ts, WFState (v ++ ts).length x := by
  intro x hx
  rcases List.mem_append.mp hx with h | h
  · exact wfState_mono x (by simp) (hwf x h)
  · rw [hts x h]
    exact wf_newState _

/-- Writing `{ vec[i] with rule := c, ref1 := a }` with an in-range `a`
preserves well-formedness of the vector. -/
theorem wfNfa_update2 (v : List NFAState) (hwf : ∀ st ∈ v, WFState v.length st)
    (i c a : Int) (ha : 0 ≤ a ∧ a < (v.length : Int)) :
    ∀ x ∈ vset v i { vget v i with rule := c, ref1 := a },
      WFState (vset v i { vget v i with rule := c, ref1 := a }).length x := by
  apply wfNfa_vset v hwf i
  refine ⟨fun _ => ha, (wf_vget v hwf i).2.1, fun _ _ => ?_⟩
  show a ≠ REF_UNDEFINED
  simp only [REF_UNDEFINED]
  omega

/-- Writing `{ vec[i] with rule := c, ref1 := a, ref2 := b }` with in-range
`a`, `b` preserves well-formedness of the vector. -/
theorem wfNfa_update3 (v : List NFAState) (hwf : ∀ st ∈ v, WFState v.length st)
    (i c a b : Int) (ha : 0 ≤ a ∧ a < (v.length : Int)) (hb : 0 ≤ b ∧ b < (v.length : Int)) :
    ∀ x ∈ vset v i { vget v i with rule := c, ref1 := a, ref2 := b },
      WFState (vset v i { vget v i with rule := c, ref1 := a, ref2 := b }).length x := by
  apply wfNfa_vset v hwf i
  refine ⟨fun _ => ha, fun _ => hb, fun _ _ => ?_⟩
  show a ≠ REF_UNDEFINED
  simp only [REF_UNDEFINED]
  omega

theorem newPair_all_new : ∀ st ∈ [newState, newState], st = newState := by
  intro st hst
  rcases List.mem_cons.mp hst with h | h
  · exact h
  · exact List.mem_singleton.mp h

theorem ch_vec_length (m : NFA) (c : Int) : ((m.ch c).2).vec.length = m.vec.length + 2 := by
  simp [NFA.ch, vset]

theorem select_vec_length (m : NFA) (lv rv : NFASubsetRef) :
    ((m.select lv rv).2).vec.length = m.vec.length + 2 := by
  simp [NFA.select, vset]

theorem wfNfa_ch (m : NFA) (hwf : WFNfa m.vec) (c : Int) : WFNfa ((m.ch c).2).vec := by
  have hlen0 : (m.vec ++ [newState, newState]).length = m.vec.length + 2 := by simp
  have h0 : ∀ st ∈ m.vec ++ [newState, newState],
      WFState (m.vec ++ [newState, newState]).length st :=
    wfNfa_append_new m.vec hwf [newState, newState] newPair_all_new
  intro x hx
  exact wfNfa_update2 (m.vec ++ [newState, newState]) h0 (m.vec.length : Int) c
    ((m.vec.length : Int) + 1)
    ⟨by omega, by rw [hlen0]; push_cast; omega⟩ x hx

theorem wfNfa_link (m : NFA) (hwf : WFNfa m.vec) (lv rv : NFASubsetRef)
    (hlv : ValidFrag m.vec.length lv) (hrv : ValidFrag m.vec.length rv) :
    WFNfa ((m.link lv rv).2).vec := by
  intro x hx
  exact wfNfa_update2 m.vec hwf lv.stop RULE_EPSILON rv.start ⟨hrv.1, hrv.2.1⟩ x hx

theorem wfNfa_select (m : NFA) (hwf : WFNfa m.vec) (lv rv : NFASubsetRef)
    (hlv : ValidFrag m.vec.length lv) (hrv : ValidFrag m.vec.length rv) :
    WFNfa ((m.select lv rv).2).vec := by
  have hlen0 : (m.vec ++ [newState, newState]).length = m.vec.length + 2 := by simp
  have h0 : ∀ st ∈ m.vec ++ [newState, newState],
      WFState (m.vec ++ [newState, newState]).length st :=
    wfNfa_append_new m.vec hwf [newState, newState] newPair_all_new
  have h1 := wfNfa_update3 (m.vec ++ [newState, newState]) h0 (m.vec.length : Int)
    RULE_EPSILON lv.start rv.start
    ⟨hlv.1, by rw [hlen0]; push_cast; obtain ⟨a, b, _, _⟩ := hlv; omega⟩
    ⟨hrv.1, by rw [hlen0]; push_cast; obtain ⟨a, b, _, _⟩ := hrv; omega⟩
  have h2 := wfNfa_update2 _ h1 lv.stop RULE_EPSILON ((m.vec.length : Int) + 1)
    ⟨by omega, by simp [vset]⟩
  have h3 := wfNfa_update2 _ h2 rv.stop RULE_EPSILON ((m.vec.length : Int) + 1)
    ⟨by omega, by simp [vset]⟩
  intro x hx
  exact h3 x hx

theorem wfNfa_star (m : NFA) (hwf : WFNfa m.vec) (v : NFASubsetRef)
    (hv : ValidFrag m.vec.length v) : WFNfa ((m.star v).2).vec := by
  have hlen0 : (m.vec ++ [newState, newState]).length = m.vec.length + 2 := by simp
  have h0 : ∀ st ∈ m.vec ++ [newState, newState],
      WFState (m.vec ++ [newState, newState]).length st :=
    wfNfa_append_new m.vec hwf [newState, newState] newPair_all_new
  have h1 := wfNfa_update3 (m.vec ++ [newState, newState]) h0 (m.vec.length : Int)
    RULE_EPSILON v.start ((m.vec.length : Int) + 1)
    ⟨hv.1, by rw [hlen0]; push_cast; obtain ⟨a, b, _, _⟩ := hv; omega⟩
    ⟨by omega, by rw [hlen0]; push_cast; omega⟩
  have h2 := wfNfa_update2 _ h1 v.stop RULE_EPSILON (m.vec.length : Int)
    ⟨by omega, by simp [vset]⟩
  intro x hx
  exact h2 x hx

theorem wfNfa_question (m : NFA) (hwf : WFNfa m.vec) (v : NFASubsetRef)
    (hv : ValidFrag m.vec.length v) : WFNfa ((m.question v).2).vec := by
  have hlen0 : (m.vec ++ [newState]).length = m.vec.length + 1 := by simp
  have h0 : ∀ st ∈ m.vec ++ [newState], WFState (m.vec ++ [newState]).length st :=
    wfNfa_append_new m.vec hwf [newState] (fun st hst => List.mem_singleton.mp hst)
  have h1 := wfNfa_update3 (m.vec ++ [newState]) h0 (m.vec.length : Int)
    RULE_EPSILON v.start v.stop
    ⟨hv.1, by rw [hlen0]; push_cast; obtain ⟨a, b, _, _⟩ := hv; omega⟩
    ⟨hv.2.2.1, by rw [hlen0]; push_cast; obtain ⟨_, _, a, b⟩ := hv; omega⟩
  intro x hx
  exact h1 x hx

/-- Every algebra-built automaton has a well-formed state vector. -/
theorem built_wf (m : NFA) (hb : Built m) : WFNfa m.vec := by
  induction hb with
  | init =>
    intro st hst
    exact absurd hst (List.not_mem_nil st)
  | ch c hb ih => exact wfNfa_ch _ ih c
  | link hb hlv hrv ih => exact wfNfa_link _ ih _ _ hlv hrv
  | select hb hlv hrv ih => exact wfNfa_select _ ih _ _ hlv hrv
  | star hb hv ih => exact wfNfa_star _ ih _ hv
  | question hb hv ih => exact wfNfa_question _ ih _ hv

/-! `range` and `one_of` build the same shapes: they are compositions of
`ch` and `select` on valid fragments, so their results are also `Built`. -/

theorem validFrag_mono {n n' : Nat} (h : n ≤ n') {f : NFASubsetRef}
    (hf : ValidFrag n f) : ValidFrag n' f := by
  obtain ⟨a, b, c, d⟩ := hf
  exact ⟨a, by omega, c, by omega⟩

theorem ch_frag_valid (m : NFA) (c : Int) :
    ValidFrag ((m.ch c).2).vec.length (m.ch c).1 := by
  have hl := ch_vec_length m c
  refine ⟨?_, ?_, ?_, ?_⟩
  · show (0 : Int) ≤ (m.vec.length : Int)
    omega
  · show (m.vec.length : Int) < (((m.ch c).2).vec.length : Int)
    rw [hl]
    push_cast
    omega
  · show (0 : Int) ≤ (m.vec.length : Int) + 1
    omega
  · show (m.vec.length : Int) + 1 < (((m.ch c).2).vec.length : Int)
    rw [hl]
    push_cast
    omega

theorem select_frag_valid (m : NFA) (lv rv : NFASubsetRef) :
    ValidFrag ((m.select lv rv).2).vec.length (m.select lv rv).1 := by
  have hl := select_vec_length m lv rv
  refine ⟨?_, ?_, ?_, ?_⟩
  · show (0 : Int) ≤ (m.vec.length : Int)
    omega
  · show (m.vec.length : Int) < (((m.select lv rv).2).vec.length : Int)
    rw [hl]
    push_cast
    omega
  · show (0 : Int) ≤ (m.vec.length : Int) + 1
    omega
  · show (m.vec.length : Int) + 1 < (((m.select lv rv).2).vec.length : Int)
    rw [hl]
    push_cast
    omega

theorem built_rangeLoop : ∀ (m : NFA) (ns : NFASubsetRef) (c e : Int),
    Built m → ValidFrag m.vec.length ns →
    Built ((m.rangeLoop ns c e).2) ∧
      ValidFrag (((m.rangeLoop ns c e).2).vec.length) ((m.rangeLoop ns c e).1) := by
  intro m ns c e
  induction m, ns, c, e using NFA.rangeLoop.induct with
  | case1 m ns c e hle p q ih =>
    intro hb hns
    rw [NFA.rangeLoop, if_pos hle]
    exact ih
      (Built.select (Built.ch c hb)
        (validFrag_mono (by rw [ch_vec_length]; omega) hns) (ch_frag_valid m c))
      (select_frag_valid _ _ _)
  | case2 m ns c e hle =>
    intro hb hns
    rw [NFA.rangeLoop, if_neg hle]
    exact ⟨hb, hns⟩

theorem built_range (m : NFA) (s e : Int) (hb : Built m) : Built ((m.range s e).2) := by
  rw [NFA.range]
  by_cases h1 : s > e
  · rw [if_pos h1]
    exact hb
  · rw [if_neg h1]
    by_cases h2 : s = e
    · rw [if_pos h2]
      exact Built.ch s hb
    · rw [if_neg h2]
      exact (built_rangeLoop (m.ch s).2 (m.ch s).1 (s + 1) e (Built.ch s hb)
        (ch_frag_valid m s)).1

theorem built_oneOfLoop : ∀ (cs : List Int) (m : NFA) (ns : NFASubsetRef),
    Built m → ValidFrag m.vec.length ns →
    Built ((m.oneOfLoop ns cs).2) ∧
      ValidFrag (((m.oneOfLoop ns cs).2).vec.length) ((m.oneOfLoop ns cs).1) := by
  intro cs
  induction cs with
  | nil =>
    intro m ns hb hns
    exact ⟨hb, hns⟩
  | cons c rest ih =>
    intro m ns hb hns
    exact ih _ _
      (Built.select (Built.ch c hb)
        (validFrag_mono (by rw [ch_vec_length]; omega) hns) (ch_frag_valid m c))
      (select_frag_valid _ _ _)

theorem built_one_of (m : NFA) (cs : List Int) (hb : Built m) :
    Built ((m.one_of cs).2) := by
  cases cs with
  | nil => exact hb
  | cons c rest =>
    exact (built_oneOfLoop rest (m.ch c).2 (m.ch c).1 (Built.ch c hb) (ch_frag_valid m c)).1

/-! Claim C1: the produced DFA accepts exactly the language of the NFA. -/

/-- C1: for every NFA built by a sequence of fragment-algebra operations
(`ch`, `link`, `select`, `star`, `question`; `range` and `one_of` are
compositions of these, see `built_range` and `built_one_of`) whose stored
overall fragment is a real (start, end) pair of the automaton, and for every
input word, the DFA returned by `nfa2dfa` accepts the word if and only if
the source NFA accepts it: there is a path from the fragment's start state
to its end state consuming the word, with free epsilon moves. -/
theorem claim_C1_dfa_language_equals_nfa_language (m : NFA) (hb : Built m)
    (hv : ValidFrag m.vec.length m.nfa) (d : DFA)
    (hd : m.nfa2dfa = some (Except.ok d)) (w : List Int) :
    d.acceptsB w = true ↔
      NfaAccepts m.vec m.nfa.start.toNat w m.nfa.stop.toNat := by
  have hwf : WFNfa m.vec := built_wf m hb
  unfold NFA.nfa2dfa nfa2dfaOf at hd
  cases hcalc : calculate_epsilon_closures m.vec (List.replicate m.vec.length ∅) with
  | error e =>
    rw [hcalc] at hd
    simp at hd
  | ok ecs =>
    rw [hcalc] at hd
    have hd' : (match subsetLoop m.vec ecs (subsetFuel ecs) 0
          [ecsGet ecs m.nfa.start.toNat] [] with
        | none => (none : Option (Except String DFA))
        | some (states, recs) =>
          some (Except.ok (assembleDFA states recs m.nfa.stop))) = some (Except.ok d) := hd
    clear hd
    cases hloop : subsetLoop m.vec ecs (subsetFuel ecs) 0
        [ecsGet ecs m.nfa.start.toNat] [] with
    | none =>
      rw [hloop] at hd'
      simp at hd'
    | some pr =>
      obtain ⟨states', recs'⟩ := pr
      rw [hloop] at hd'
      simp only [Option.some.injEq, Except.ok.injEq] at hd'
      subst hd' 
      obtain ⟨⟨ext, hext⟩, hsound, hnd, hcompl⟩ :=
        subsetLoop_spec m.vec ecs (subsetFuel ecs) 0 [ecsGet ecs m.nfa.start.toNat] []
          states' recs' hloop
          (fun r hr => absurd hr (List.not_mem_nil r))
          (by simp)
          (fun k hk => absurd hk (by omega))
      have h0len : 0 < states'.length := by
        rw [hext]
        simp
      have hS0 : states'.getD 0 ∅ = ecsGet ecs m.nfa.start.toNat := by
        rw [hext]
        rfl
      have hlenE : ecs.length = m.vec.length := by
        have hl := calculate_closures_length m.vec (List.replicate m.vec.length ∅) ecs hcalc
        simpa using hl
      have hec := calculate_closures_correct m.vec hwf ecs hcalc
      have hstart : m.nfa.start.toNat < m.vec.length := by
        obtain ⟨a, b, _, _⟩ := hv
        omega
      have hstartmem : m.nfa.start.toNat ∈ ecsGet ecs m.nfa.start.toNat := by
        apply Finset.mem_coe.mp
        rw [hec _ hstart]
        exact epsReach_refl m.vec _
      have hclosed : ClosedSet m.vec (ecsGet ecs m.nfa.start.toNat) := by
        intro x hx y hy
        have hx' := Finset.mem_coe.mpr hx
        rw [hec _ hstart] at hx'
        apply Finset.mem_coe.mp
        rw [hec _ hstart]
        exact epsReach_trans m.vec hx' hy
      have hbdd : ∀ si ∈ ecsGet ecs m.nfa.start.toNat, si < m.vec.length := by
        intro si hsi
        have hsi' := Finset.mem_coe.mpr hsi
        rw [hec _ hstart] at hsi'
        exact epsReach_lt m.vec hwf hstart hsi'
      have hstop : (0 : Int) ≤ m.nfa.stop := hv.2.2.1
      have hAcc := assembled_accepts m.vec ecs states' recs' m.nfa.stop hsound hnd hcompl
        h0len w
      rw [hAcc, hS0]
      have hmf := movesFold_iff_accepts m.vec hwf ecs hlenE hec w
        (ecsGet ecs m.nfa.start.toNat) hclosed hbdd m.nfa.stop.toNat
      rw [hmf]
      constructor
      · intro ⟨_, i, hi, hacc⟩
        have hi' := Finset.mem_coe.mpr hi
        rw [hec _ hstart] at hi'
        exact nfaAccepts_eps_prepend m.vec hi' hacc
      · intro hN
        exact ⟨hstop, m.nfa.start.toNat, hstartmem, hN⟩

/-- Witness for C1 at the automaton of `ch 97` and the word "a". -/
theorem claim_C1_dfa_language_equals_nfa_language_witness :
    (assembleDFA [{0}, {1}] [⟨0, 97, 1⟩] 1).acceptsB [97] = true ↔
      NfaAccepts ((({} : NFA).ch 97).2).vec ((({} : NFA).ch 97).2).nfa.start.toNat [97]
        ((({} : NFA).ch 97).2).nfa.stop.toNat :=
  claim_C1_dfa_language_equals_nfa_language (({} : NFA).ch 97).2
    (Built.ch 97 Built.init)
    (by unfold ValidFrag
        decide)
    (assembleDFA [{0}, {1}] [⟨0, 97, 1⟩] 1)
    (by simp +decide [NFA.nfa2dfa, nfa2dfaOf, NFA.ch, vset, vget, newState,
      calculate_epsilon_closures, ecForLoop, ecLoop, stGet, flagGet, ecsGet, ecsAfter1,
      ecsAfter2, ecsInsertSelf, ecsUnion, RULE_EPSILON, RULE_UNDEFINED, REF_UNDEFINED,
      epsLoopMsg, subsetLoop, subsetFuel, ecUniverse, chClosures, ccStep, mapInsertUnion,
      subsetStepFold, findSetIdx, assembleDFA, applyRec, mapEmplace])
    [97]

end TinyRegex
